import Mathlib

/-!
Verification of the key-relationship resolution and matching engine of the
repository `reter_linhas_com_info_das_chaves` (src/sped_efd.rs and friends).

Modelling conventions, used throughout:

* A Rust `String` key is a Lean `String`; `HashSet<String>` is `Finset String`.
* A `HashMap<String, HashSet<String>>` (the repository's `KeyMap`) is modelled
  as a function `Key → Finset Key` together with an explicit finite domain
  `dom : Finset Key` wherever the code iterates over the map's entries.
  `HashMap::get` of an absent key is the empty set (the program only ever
  stores non-empty sets, so `∅` faithfully plays the role of "absent").
* Iteration order of a `HashMap`/`HashSet` is unspecified in Rust; the
  embedding fixes a concrete order (`toListK`, a sorted enumeration) where
  the program iterates.  All proved properties are order-insensitive
  statements.
-/

namespace Sped

/-- Keys are strings; the program's well-formed keys are 44-digit strings. -/
abbrev Key := String

/-- Lookup in a map `m` with entry set `dom`: entries outside the domain read
as the empty set (models `HashMap::get` returning `None`). -/
def mapGet (dom : Finset Key) (m : Key → Finset Key) (u : Key) : Finset Key :=
  if u ∈ dom then m u else ∅

/-- Step 1 of `expand_cte_complementar` (src/sped_efd.rs:244-250): the
symmetric adjacency built by draining the map and inserting every recorded
edge in both directions.  `adj u` holds `v` iff the input map records the
edge `u → v` or the edge `v → u`. -/
def symmAdj (dom : Finset Key) (m : Key → Finset Key) (u : Key) : Finset Key :=
  mapGet dom m u ∪ dom.filter (fun v => u ∈ m v)

/-- The key set of the adjacency map built in step 1 of
`expand_cte_complementar`: a key becomes an `adj` entry iff it has at least
one outgoing edge or appears in some entry's neighbour set. -/
def symmV (dom : Finset Key) (m : Key → Finset Key) : Finset Key :=
  dom.filter (fun u => m u ≠ ∅) ∪ dom.biUnion m

/-- Keys outside `symmV` have an empty symmetrised adjacency.  Stated as a
`def` because the depth-first search below carries it for termination. -/
def symmAdj_off (dom : Finset Key) (m : Key → Finset Key) :
    ∀ u, u ∉ symmV dom m → symmAdj dom m u = ∅ := by
  intro u hu
  rw [symmV, Finset.mem_union, Finset.mem_filter] at hu
  push_neg at hu
  obtain ⟨h1, h2⟩ := hu
  rw [symmAdj, mapGet]
  have hfil : dom.filter (fun v => u ∈ m v) = ∅ := by
    rw [Finset.filter_eq_empty_iff]
    intro v hv hmem
    exact h2 (Finset.mem_biUnion.mpr ⟨v, hv, hmem⟩)
  rw [hfil, Finset.union_empty]
  split
  · exact h1 (by assumption)
  · rfl

/-- Computable enumeration of a finite key set, standing in for the
unspecified iteration order of a `HashSet<String>`. -/
def toListK (s : Finset Key) : List Key :=
  s.sort (· ≤ ·)

/-- Step 2 of `expand_cte_complementar` (src/sped_efd.rs:264-271): the
stack-based depth-first search that collects one connected component.
`stack` is the explicit DFS stack, `visited` the shared visited set,
`group` the members discovered so far, in discovery order.  The hypothesis
`hV` (true for the constructed adjacency) bounds the search for
termination. -/
def dfs (adj : Key → Finset Key) (V : Finset Key) (hV : ∀ u, u ∉ V → adj u = ∅)
    (stack : List Key) (visited : Finset Key) (group : List Key) :
    Finset Key × List Key :=
  match stack with
  | [] => (visited, group)
  | current :: rest =>
    if current ∈ visited then
      dfs adj V hV rest visited group
    else
      dfs adj V hV (toListK (adj current) ++ rest) (insert current visited)
        (group ++ [current])
termination_by ((V \ visited).card, stack.length)
decreasing_by
  · exact Prod.Lex.right _ (Nat.lt_succ_self _)
  · rename_i hcur
    by_cases hcv : current ∈ V
    · refine Prod.Lex.left _ _ (Finset.card_lt_card ?_)
      refine ⟨Finset.sdiff_subset_sdiff le_rfl (Finset.subset_insert _ _), ?_⟩
      intro hsub
      have : current ∈ V \ insert current visited :=
        hsub (Finset.mem_sdiff.mpr ⟨hcv, hcur⟩)
      simp at this
    · have hadj : adj current = ∅ := hV current hcv
      have hsd : V \ insert current visited = V \ visited := by
        ext x
        simp only [Finset.mem_sdiff, Finset.mem_insert, not_or]
        constructor
        · rintro ⟨hx, _, hx2⟩; exact ⟨hx, hx2⟩
        · rintro ⟨hx, hx2⟩
          refine ⟨hx, fun hxc => ?_, hx2⟩
          subst hxc; exact hcv hx
      rw [hsd, hadj]
      exact Prod.Lex.right _ (by simp [toListK])

/-- Step 3 of `expand_cte_complementar` (src/sped_efd.rs:274-281): rebuild
the map for one discovered group; each member receives all other members,
and members whose "others" set is empty are not inserted. -/
def updateGroup (out : Key → Finset Key) (g : Finset Key) : Key → Finset Key :=
  fun u => if u ∈ g then (if g.erase u = ∅ then out u else g.erase u) else out u

/-- The outer loop of `expand_cte_complementar` (src/sped_efd.rs:255-282):
run the DFS from every not-yet-visited key and rebuild the map per group.
Returns the final visited set together with the rebuilt map. -/
def expandLoop (adj : Key → Finset Key) (V : Finset Key)
    (hV : ∀ u, u ∉ V → adj u = ∅) :
    List Key → Finset Key → (Key → Finset Key) → Finset Key × (Key → Finset Key)
  | [], visited, out => (visited, out)
  | node :: keys, visited, out =>
    if node ∈ visited then expandLoop adj V hV keys visited out
    else
      expandLoop adj V hV keys (dfs adj V hV [node] visited []).1
        (updateGroup out (dfs adj V hV [node] visited []).2.toFinset)

/-- The function `expand_cte_complementar` (src/sped_efd.rs:242-283) as a
whole: symmetrise the input map, find connected components by DFS, and
replace every member's set by "all other members of its component". -/
def expandCteComplementar (dom : Finset Key) (m : Key → Finset Key) :
    Key → Finset Key :=
  (expandLoop (symmAdj dom m) (symmV dom m) (symmAdj_off dom m)
    (toListK (symmV dom m)) ∅ (fun _ => ∅)).2

/-- UTF-8 byte length of a string, as Rust's `str::len`. -/
def byteLen (s : String) : Nat :=
  (s.data.map Char.utf8Size).sum

/-- Helper for `sliceBytes`: walk the characters, consuming `a` bytes before
the slice starts and `b` bytes before it ends.  Returns `none` exactly when
Rust byte-slicing `&s[a..b]` would panic (index out of bounds or not on a
character boundary). -/
def sliceBytesGo : List Char → Nat → Nat → Option (List Char)
  | _, 0, 0 => some []
  | [], _, _ => none
  | c :: rest, 0, b =>
    if b < c.utf8Size then none
    else (sliceBytesGo rest 0 (b - c.utf8Size)).map (fun l => c :: l)
  | c :: rest, a, b =>
    if a < c.utf8Size then none
    else sliceBytesGo rest (a - c.utf8Size) (b - c.utf8Size)

/-- Rust's byte slice `&s[a..b]` of a UTF-8 string, `none` when it panics
(`a > b`, out of bounds, or a bound inside a multi-byte character).
`String::get(a..b)` returns exactly this `Option`. -/
def sliceBytes (l : List Char) (a b : Nat) : Option (List Char) :=
  if a ≤ b then sliceBytesGo l a b else none

/-- The function `eh_modelo` (src/sped_efd.rs:66-68): the key has byte
length 44 and `chave.get(20..22)` equals the model code. -/
def ehModelo (chave modelo : String) : Bool :=
  byteLen chave == 44 && sliceBytes chave.data 20 22 == some modelo.data

/-- Models the regex class `\d` of the `regex` crate, which is Unicode-aware:
ASCII digits plus (as representatives of the Nd category) the Arabic-Indic
and Devanagari decimal digit blocks.  The full Nd category is larger; only
characters from these blocks appear in any input considered here. -/
def isRegexDigit (c : Char) : Bool :=
  c.isDigit || (0x660 ≤ c.toNat && c.toNat ≤ 0x669) ||
    (0x966 ≤ c.toNat && c.toNat ≤ 0x96F)

/-- Models the regex class `\w` (word character): letters, digits and the
underscore; the same Unicode caveat as `isRegexDigit` applies. -/
def isWordChar (c : Char) : Bool :=
  c.isAlpha || c == '_' || isRegexDigit c

/-- Models `Regex::new(r"\b\d{44}\b").find_iter(line)`
(src/sped_efd.rs:83,143) as one left-to-right pass: `beforeWord` records
whether the character just before the current digit run is a word
character, `run` is the digit run being read.  A run is a match when it is
exactly 44 digits long and both ends sit at word boundaries (line ends
count as boundaries). -/
def scan44Go : Bool → List Char → List Char → List (List Char)
  | beforeWord, run, [] =>
    if run.length == 44 && !beforeWord then [run] else []
  | beforeWord, run, c :: rest =>
    if isRegexDigit c then
      scan44Go beforeWord (run ++ [c]) rest
    else
      (if run.length == 44 && !beforeWord && !(isWordChar c) then [run]
       else []) ++ scan44Go (isWordChar c) [] rest

/-- The maximal 44-digit word-bounded runs of a line. -/
def scan44 (l : List Char) : List (List Char) :=
  scan44Go false [] l

/-- All 44-digit tokens of one line, as strings, in order of occurrence. -/
def extract44 (line : String) : List String :=
  (scan44 line.data).map (fun l => String.mk l)

/-- Bidirectional edge insertion of `ler_chave_complementar_deste_cte`
(src/sped_efd.rs:158-164): each endpoint receives the other. -/
def addEdge (m : Key → Finset Key) (a b : Key) : Key → Finset Key :=
  fun k =>
    if k = a then insert b (m k) else if k = b then insert a (m k) else m k

/-- Per-line step of `ler_chave_complementar_deste_cte`
(src/sped_efd.rs:151-167): take the first two 44-digit tokens; if both are
model 57 and differ, record the symmetric edge, otherwise leave the map. -/
def compLine (m : Key → Finset Key) (line : String) : Key → Finset Key :=
  match extract44 line with
  | cte :: comp :: _ =>
    if ehModelo cte "57" && ehModelo comp "57" && cte != comp then
      addEdge m cte comp
    else m
  | _ => m

/-- The loader `ler_chave_complementar_deste_cte` (src/sped_efd.rs:133-189)
on the file's lines: per-line edges merged by per-key set union
(`try_fold`/`try_reduce` with `or_default().insert` and `extend`). -/
def lerChaveComplementarDesteCte (lines : List String) : Key → Finset Key :=
  lines.foldl compLine (fun _ => ∅)

/-- Per-line parse of `ler_todas_as_nfes_deste_cte` (src/sped_efd.rs:88-111):
the first token must be model 57; the model-55 tokens among the rest form
its cargo-note set; lines yielding no notes are dropped. -/
def nfeLine (line : String) : Option (Key × Finset Key) :=
  match extract44 line with
  | cte :: rest =>
    if ehModelo cte "57" then
      let nfes := (rest.filter (fun nfe => ehModelo nfe "55")).toFinset
      if nfes = ∅ then none else some (cte, nfes)
    else none
  | [] => none

/-- Map insertion as `HashMap::from_iter` performs it: a later pair with the
same key overwrites the earlier one. -/
def insertOverwrite (m : Key → Option (Finset Key)) (k : Key) (v : Finset Key) :
    Key → Option (Finset Key) :=
  fun x => if x = k then some v else m x

/-- The loader `ler_todas_as_nfes_deste_cte` (src/sped_efd.rs:70-131) on the
file's lines: the per-line pairs are collected into a `HashMap`
(`collect::<SpedResult<KeyMap>>`), whose `FromIterator` instance overwrites
on key collision; the fold is the sequential denotation of that collect. -/
def lerTodasAsNfesDesteCte (lines : List String) : Key → Option (Finset Key) :=
  lines.foldl
    (fun m line =>
      match nfeLine line with
      | some p => insertOverwrite m p.1 p.2
      | none => m)
    (fun _ => none)

/-- The per-line symmetric contribution of
`ler_chave_complementar_deste_cte`: on an accepted line each of the first
two tokens receives the other; otherwise nothing. -/
def lineDelta (line : String) : Key → Finset Key :=
  fun k =>
    match extract44 line with
    | cte :: comp :: _ =>
      if ehModelo cte "57" && ehModelo comp "57" && cte != comp then
        (if k = cte then {comp} else ∅) ∪ (if k = comp then {cte} else ∅)
      else ∅
    | _ => ∅

/-- The function `get_nfe_ctes` (src/sped_efd.rs:191-199): the inverted
index, sending a note to the set of transport keys that carry it. -/
def getNfeCtes (domN : Finset Key) (cteNfes : Key → Finset Key) (nfe : Key) :
    Finset Key :=
  domN.filter (fun cte => nfe ∈ cteNfes cte)

/-- The function `expand_cte_nfes` (src/sped_efd.rs:309-333): every key with
cargo notes pushes them to each of its complementary partners; the staged
`updates` map is merged back by union.  `domN` is the entry set of
`cteNfes`. -/
def expandCteNfes (domN : Finset Key) (cteNfes : Key → Finset Key)
    (cteComplementar : Key → Finset Key) : Key → Finset Key :=
  fun target =>
    cteNfes target ∪
      (domN.filter (fun cte => target ∈ cteComplementar cte)).biUnion cteNfes

/-- The two file kinds of `TipoDeArquivo` (src/sped_efd.rs:420-424). -/
inductive TipoDeArquivo
  | efdContrib
  | docFiscais
deriving DecidableEq

/-- The error cases of `SpedError` (src/error.rs) reachable in the modelled
fragment.  `csvUnequalLengths` stands for the raw `csv::Error` with kind
`UnequalLengths` that `process_single_csv` propagates unconverted. -/
inductive SpedErr
  | columnCount (arquivo : String) (linha esperado encontrado : Nat)
  | config (msg : String)
  | csvUnequalLengths (esperado encontrado : Nat)
  | duplicateColumnName (arquivo coluna : String)
  | emptyColumnName (arquivo : String)
  | missingEssentialColumn (arquivo coluna : String) (tipo : TipoDeArquivo)
deriving DecidableEq

/-- Models the regex class `\s` for the characters that occur in the data
considered here: the ASCII whitespace characters.  (`\s` also matches
non-ASCII Unicode whitespace, not modelled.) -/
def isWs (c : Char) : Bool :=
  c == ' ' || c == '\t' || c == '\n' || c.toNat == 0x0b || c.toNat == 0x0c ||
    c == '\r'

/-- First column name already seen when reached, scanning left to right:
models the `vista.insert(name)` loop of
`verificar_existencia_de_colunas_essenciais` (src/sped_efd.rs:440-449). -/
def firstDup : List String → Finset String → Option String
  | [], _ => none
  | n :: rest, vista => if n ∈ vista then some n else firstDup rest (insert n vista)

/-- The function `verificar_existencia_de_colunas_essenciais`
(src/sped_efd.rs:426-481): blank column names, duplicated column names, then
the first essential column absent from the header, in that order.
A name `name` satisfies `name.trim().is_empty()` exactly when all its
characters are whitespace, which is how the blank check is modelled. -/
def verificarColunas (columnNames : List String) (tipo : TipoDeArquivo)
    (essenciais : List String) (inputFile : String) : Except SpedErr Unit :=
  if columnNames.any (fun name => name.data.all isWs) then
    .error (.emptyColumnName inputFile)
  else
    match firstDup columnNames ∅ with
    | some n => .error (.duplicateColumnName inputFile n)
    | none =>
      match essenciais.find? (fun e => !(columnNames.contains e)) with
      | some ausente => .error (.missingEssentialColumn inputFile ausente tipo)
      | none => .ok ()

/-- Models `RE_NON_DIGITS.replace_all(content, "")` (src/sped_efd.rs:392,
src/regex.rs:29): remove every character that is not a `\d` digit. -/
def cleanDigits (s : String) : String :=
  String.mk (s.data.filter isRegexDigit)

/-- Models `RE_CHAVE_44.is_match` (src/regex.rs:30): the string is exactly
44 `\d` digit characters. -/
def wf44 (s : String) : Bool :=
  s.data.length == 44 && s.data.all isRegexDigit

/-- The function `add_correlated_keys_to_info` (src/sped_efd.rs:410-418):
extend the set with the key's entry in each of the three reference maps. -/
def addCorrelatedKeysToInfo (nfeCtes cteNfes cteComplementar : Key → Finset Key)
    (chave : Key) (info : Finset Key) : Finset Key :=
  info ∪ nfeCtes chave ∪ cteNfes chave ∪ cteComplementar chave

/-- One data row of the ledger loop of `get_efd_info`
(src/sped_efd.rs:390-404): strip non-digits from the key column; a
well-formed 44-digit result is inserted together with its correlated keys. -/
def efdRowStep (nfeCtes cteNfes cteComplementar : Key → Finset Key)
    (idxChave : Nat) (keysEfd : Finset Key) (record : List String) : Finset Key :=
  match record.get? idxChave with
  | some content =>
    let cleanKey := cleanDigits content
    if wf44 cleanKey then
      insert cleanKey
        (addCorrelatedKeysToInfo nfeCtes cteNfes cteComplementar cleanKey keysEfd)
    else keysEfd
  | none => keysEfd

/-- The record loop of `get_efd_info` (src/sped_efd.rs:385-405): `linha` is
the 1-based file line (the header is line 1, so the first data row is 2); a
row whose field count differs from the header's fails with `ColumnCount`
via `SpedError::from_csv` (src/error.rs:84-101). -/
def efdRows (arquivo : String) (esperado idxChave : Nat)
    (nfeCtes cteNfes cteComplementar : Key → Finset Key) :
    Nat → List (List String) → Finset Key → Except SpedErr (Finset Key)
  | _, [], acc => .ok acc
  | linha, record :: rest, acc =>
    if record.length ≠ esperado then
      .error (.columnCount arquivo linha esperado record.length)
    else
      efdRows arquivo esperado idxChave nfeCtes cteNfes cteComplementar
        (linha + 1) rest
        (efdRowStep nfeCtes cteNfes cteComplementar idxChave acc record)

/-- The function `get_efd_info` (src/sped_efd.rs:335-408) on an already
parsed ledger file: header validation, key-column location, then the record
loop.  `colunasEfd` is the configured logical-name → header-text map. -/
def getEfdInfo (arquivo : String) (colunasEfd : List (String × String))
    (header : List String) (rows : List (List String))
    (nfeCtes cteNfes cteComplementar : Key → Finset Key) :
    Except SpedErr (Finset Key) :=
  match verificarColunas header .efdContrib (colunasEfd.map Prod.snd) arquivo with
  | .error e => .error e
  | .ok _ =>
    match colunasEfd.lookup "chave_documento" with
    | none => .error (.config "chave_documento")
    | some targetColName =>
      match header.indexOf? targetColName with
      | none => .error (.missingEssentialColumn arquivo targetColName .efdContrib)
      | some idxChave =>
        efdRows arquivo header.length idxChave nfeCtes cteNfes cteComplementar
          2 rows ∅

/-- Models `field.contains("  ")` (src/sped_efd.rs:601): two consecutive
ASCII space characters somewhere in the string. -/
def hasDoubleSpace : List Char → Bool
  | c1 :: c2 :: rest => (c1 == ' ' && c2 == ' ') || hasDoubleSpace (c2 :: rest)
  | _ => false

/-- State of the single left-to-right pass that models
`RE_MULTISPACE.replace_all(s, " ")` (src/regex.rs:28): `norm` outside any
whitespace, `one w` having just read the single whitespace character `w`
(not yet known to start a run), `run` inside a run of length at least 2
whose single replacement space is already emitted. -/
inductive WsState
  | norm
  | one (w : Char)
  | run

/-- Models `RE_MULTISPACE.replace_all(s, " ")`: every maximal run of 2 or
more whitespace characters becomes one space; a lone whitespace character
is kept as it is. -/
def collapseRun : WsState → List Char → List Char
  | .norm, [] => []
  | .one w, [] => [w]
  | .run, [] => []
  | .norm, c :: rest =>
    if isWs c then collapseRun (.one c) rest else c :: collapseRun .norm rest
  | .one w, c :: rest =>
    if isWs c then ' ' :: collapseRun .run rest
    else w :: c :: collapseRun .norm rest
  | .run, c :: rest =>
    if isWs c then collapseRun .run rest else c :: collapseRun .norm rest

/-- String-level whitespace collapsing. -/
def collapseWs (s : String) : String :=
  String.mk (collapseRun .norm s.data)

/-- Field normalisation of `process_single_csv` (src/sped_efd.rs:599-608):
the regex runs only when the field contains two consecutive ASCII spaces
(the "fast path" copies the field verbatim otherwise). -/
def stageField (field : String) : String :=
  if hasDoubleSpace field.data then collapseWs field else field

/-- The record loop of `process_single_csv` (src/sped_efd.rs:583-614):
count every record; a record whose stripped key column has byte length 44
and lies in the filter is a match — its key is collected and its
field-normalised copy appended to the staging output.  A record with the
wrong field count fails the whole file with the raw csv error. -/
def docRows (esperado idx : Nat) (filter : Finset Key) :
    List (List String) → Finset Key → Nat → List (List String) →
    Except SpedErr (List (List String) × Finset Key × Nat)
  | [], found, count, staged => .ok (staged, found, count)
  | record :: rest, found, count, staged =>
    if record.length ≠ esperado then
      .error (.csvUnequalLengths esperado record.length)
    else
      match record.get? idx with
      | some content =>
        let cleanKey := String.mk (content.data.filter Char.isDigit)
        if byteLen cleanKey == 44 && decide (cleanKey ∈ filter) then
          docRows esperado idx filter rest (insert cleanKey found) (count + 1)
            (staged ++ [record.map stageField])
        else
          docRows esperado idx filter rest found (count + 1) staged
      | none => docRows esperado idx filter rest found (count + 1) staged

/-- One fiscal-document CSV file as `process_single_csv` sees it. -/
structure CsvFileInput where
  arquivo : String
  header : List String
  rows : List (List String)

/-- The function `process_single_csv` (src/sped_efd.rs:517-618) on an
already parsed file: header validation, key-column location, then the
record loop; the staging output opens with the header row only for the
first file of the stable ordering. -/
def processSingleCsv (colunasDoc : List (String × String)) (f : CsvFileInput)
    (filter : Finset Key) (isFirst : Bool) :
    Except SpedErr (List (List String) × Finset Key × Nat) :=
  match verificarColunas f.header .docFiscais (colunasDoc.map Prod.snd) f.arquivo with
  | .error e => .error e
  | .ok _ =>
    match colunasDoc.lookup "chave44_digitos" with
    | none => .error (.config "chave44_digitos")
    | some targetColName =>
      match f.header.indexOf? targetColName with
      | none =>
        .error (.missingEssentialColumn f.arquivo targetColName .docFiscais)
      | some idx =>
        docRows f.header.length idx filter f.rows ∅ 0
          (if isFirst then [f.header] else [])

/-- Rendering of the staging output lines: the csv writer joins the fields
with the per-file delimiter `;` (field quoting is not modelled; the fields
considered here contain no delimiter). -/
def stagedLines (staged : List (List String)) : List String :=
  staged.map (fun record => String.intercalate ";" record)

/-- Whether `path` is the first file of the stable ordering
(src/sped_efd.rs:571): compared by path against the head of the list. -/
def isFirstFile (files : List CsvFileInput) (f : CsvFileInput) : Bool :=
  (files.head?.map fun g => g.arquivo) == some f.arquivo

/-- One file's contribution inside `read_csv_files` (src/sped_efd.rs:493-506):
the matched keys and the record count on success, and
`unwrap_or_default()` — the empty set and zero — when the file failed. -/
def fileResult (colunasDoc : List (String × String)) (keysEfd : Finset Key)
    (isFirst : Bool) (f : CsvFileInput) : Finset Key × Nat :=
  match processSingleCsv colunasDoc f keysEfd isFirst with
  | .ok r => (r.2.1, r.2.2)
  | .error _ => (∅, 0)

/-- Aggregation loop of `read_csv_files`: union of the per-file key sets and
sum of the per-file counts (the parallel `flat_map` plus the atomic
counter, whose merges are commutative). -/
def readCsvFilesGo (colunasDoc : List (String × String)) (keysEfd : Finset Key)
    (files0 : List CsvFileInput) : List CsvFileInput → Finset Key × Nat
  | [] => (∅, 0)
  | f :: rest =>
    let r := fileResult colunasDoc keysEfd (isFirstFile files0 f) f
    let s := readCsvFilesGo colunasDoc keysEfd files0 rest
    (r.1 ∪ s.1, r.2 + s.2)

/-- The function `read_csv_files` (src/sped_efd.rs:484-515). -/
def readCsvFiles (colunasDoc : List (String × String))
    (files : List CsvFileInput) (keysEfd : Finset Key) : Finset Key × Nat :=
  readCsvFilesGo colunasDoc keysEfd files files

/-- State of the merge in `merge_files`: the set of seen line hashes, the
lines written to the final file, and the staging files deleted so far. -/
structure MergeAcc where
  seen : Finset String
  out : List String
  deleted : List String

/-- One staging line inside `merge_files` (src/sped_efd.rs:649-664):
normalise the whitespace, hash the normalised line, write it only when the
hash is new.  `hash` models `blake3::hash(..).to_string()`. -/
def mergeLine (hash : String → String) (st : Finset String × List String)
    (line : String) : Finset String × List String :=
  let normalized := collapseWs line
  let h := hash normalized
  if h ∈ st.1 then st else (insert h st.1, st.2 ++ [normalized])

/-- The function `merge_files` (src/sped_efd.rs:620-682) over the staging
files (name, lines) in the stable file ordering: lines merged first-seen
wins, each staging file deleted after its lines are merged. -/
def mergeFiles (hash : String → String) (files : List (String × List String)) :
    MergeAcc :=
  files.foldl
    (fun acc file =>
      let st := file.2.foldl (mergeLine hash) (acc.seen, acc.out)
      ⟨st.1, st.2, acc.deleted ++ [file.1]⟩)
    ⟨∅, [], []⟩

/-- Specification-level first-occurrence deduplication: keep each line's
first occurrence, in order. -/
def keepFirsts (l : List String) : List String :=
  l.foldl (fun acc x => if x ∈ acc then acc else acc ++ [x]) []

/-- Example staging files for the merge: the two files share one line up to
whitespace collapsing. -/
def exMergeFiles : List (String × List String) :=
  [("f1", ["a  b", "c"]), ("f2", ["a b", "d"])]

/-- The model-code slice `&key[20..22]` taken by
`imprimir_informacao_segregada` (src/sped_efd.rs:721),
`imprimir_chaves_nao_encontradas` (src/sped_efd.rs:789) and
`exportar_chaves_faltantes` (src/sped_efd.rs:888-898); `none` models the
panic. -/
def modeloSlice (key : String) : Option (List Char) :=
  sliceBytes key.data 20 22

/-- The length filter those three functions apply before slicing
(`key.len() >= 22`, a byte length). -/
def chavesComModelo (keys : Finset Key) : Finset Key :=
  keys.filter (fun key => 22 ≤ byteLen key)

/-- The missing-key set of `imprimir_chaves_nao_encontradas`
(src/sped_efd.rs:779-859): ledger keys of byte length at least 22 that are
in no fiscal document. -/
def chavesNaoEncontradas (keysEfd keysDoc : Finset Key) : Finset Key :=
  (chavesComModelo keysEfd).filter (fun chave => chave ∉ keysDoc)

/-- Reachability along an adjacency function: the reflexive-transitive
closure of the edge relation. -/
def Reach (adj : Key → Finset Key) (a b : Key) : Prop :=
  Relation.ReflTransGen (fun x y => y ∈ adj x) a b

/-- Connectivity in the symmetrised complementary graph: `a` and `b` lie in
one connected component. -/
def SymmReach (dom : Finset Key) (m : Key → Finset Key) (a b : Key) : Prop :=
  Reach (symmAdj dom m) a b

/-! Concrete example inputs, used by the closed witness and counterexample
theorems below. -/

/-- Example cargo-note map domain: one transport key. -/
def exDomN : Finset Key := {"A"}

/-- Example cargo-note map: key `A` carries note `N`. -/
def exNfes : Key → Finset Key := fun k => if k = "A" then {"N"} else ∅

/-- Example closed complementary map: `A` and `B` are partners. -/
def exComp : Key → Finset Key :=
  fun k => if k = "A" then {"B"} else if k = "B" then {"A"} else ∅

/-- Example complementary input domain for the expansion: the declared
edges `A → B` and `B → C`. -/
def exDomC : Finset Key := {"A", "B"}

/-- Example complementary input map with the chain `A → B`, `B → C`. -/
def exMapC : Key → Finset Key :=
  fun k => if k = "A" then {"B"} else if k = "B" then {"C"} else ∅

/-- Example transport key of model 57. -/
def exCte : String :=
  String.mk (List.replicate 20 '0' ++ ['5', '7'] ++ List.replicate 22 '0')

/-- Example cargo-note key of model 55, first variant. -/
def exNfe1 : String :=
  String.mk (List.replicate 20 '0' ++ ['5', '5'] ++ List.replicate 21 '0' ++ ['1'])

/-- Example cargo-note key of model 55, second variant. -/
def exNfe2 : String :=
  String.mk (List.replicate 20 '0' ++ ['5', '5'] ++ List.replicate 21 '0' ++ ['2'])

/-- Example cargo-note reference line: `exCte` carries `exNfe1`. -/
def exLine1 : String := exCte ++ " " ++ exNfe1

/-- Example cargo-note reference line: `exCte` carries `exNfe2`. -/
def exLine2 : String := exCte ++ " " ++ exNfe2

/-- The empty reference map. -/
def noMap : Key → Finset Key := fun _ => ∅

/-- Example 44-digit ASCII key (all threes). -/
def exKey44 : String := String.mk (List.replicate 44 '3')

/-- Example ledger header: a single column that is the configured key
column. -/
def exHeaderE : List String := ["chave"]

/-- Example ledger column configuration. -/
def exColsE : List (String × String) := [("chave_documento", "chave")]

/-- Example ledger rows: one row holding the example key. -/
def exRowsE : List (List String) := [[exKey44]]

/-- Result set of `get_efd_info` on the example ledger. -/
def exS : Finset Key :=
  match getEfdInfo "efd.csv" exColsE exHeaderE exRowsE noMap noMap noMap with
  | .ok s => s
  | .error _ => ∅

/-- A 44-character key of Arabic-Indic digits (each 2 UTF-8 bytes): a `\d`
digit string that is not ASCII. -/
def arabKey : String := String.mk (List.replicate 44 (Char.ofNat 0x660))

/-- A 44-character key of Devanagari digits (each 3 UTF-8 bytes). -/
def devKey : String := String.mk (List.replicate 44 (Char.ofNat 0x966))

/-- Ledger rows holding the Devanagari-digit key. -/
def exRowsDev : List (List String) := [[devKey]]

/-- Example two-column ledger header. -/
def exHeaderE2 : List String := ["chave", "b"]

/-- Example ledger rows whose second row has the wrong field count. -/
def exRowsBad : List (List String) := [["x", "y"], ["bad"]]

/-- Ledger rows holding the Arabic-Indic-digit key. -/
def exRowsArab : List (List String) := [[arabKey]]

/-- Result set of `get_efd_info` on the Arabic-Indic ledger. -/
def exSArab : Finset Key :=
  match getEfdInfo "efd.csv" exColsE exHeaderE exRowsArab noMap noMap noMap with
  | .ok s => s
  | .error _ => ∅

/-- Example fiscal-document column configuration. -/
def exColsD : List (String × String) := [("chave44_digitos", "chave")]

/-- Example fiscal-document header. -/
def exDocHeader : List String := ["chave", "obs"]

/-- Example fiscal-document file containing one matching row. -/
def exGoodFile : CsvFileInput := ⟨"good.csv", exDocHeader, [[exKey44, "x"]]⟩

/-- Example fiscal-document file whose header misses the key column. -/
def exBadFile : CsvFileInput := ⟨"bad.csv", ["outra"], [["y"]]⟩

/-- Example matched row with a field holding a double tab. -/
def exRowTab : List String := [exKey44, "a\t\tb"]

/-- Example fiscal-document file whose matched row has a double-tab field. -/
def exTabFile : CsvFileInput := ⟨"d1.csv", exDocHeader, [exRowTab]⟩

/-- The match test of `process_single_csv` for one record
(src/sped_efd.rs:586-592): the key column stripped to its ASCII digits has
byte length 44 and lies in the ledger key set. -/
def docMatch (filter : Finset Key) (idx : Nat) (record : List String) : Bool :=
  match record.get? idx with
  | some content =>
    let cleanKey := String.mk (content.data.filter Char.isDigit)
    byteLen cleanKey == 44 && decide (cleanKey ∈ filter)
  | none => false

/-- Result set of `get_efd_info` on the Devanagari ledger. -/
def exSDev : Finset Key :=
  match getEfdInfo "efd.csv" exColsE exHeaderE exRowsDev noMap noMap noMap with
  | .ok s => s
  | .error _ => ∅

end Sped

namespace Sped

/-! Theorems.  Each claim of the specification gets one theorem named after
it; shared lemmas come first. -/

/-- Claim C2: after `expand_cte_nfes` over a closed (symmetric)
complementary map, every complementary partner of a key inherits that key's
cargo notes, and a key with no partners keeps its cargo-note set
unchanged. -/
theorem expand_cte_nfes_propagates (domN : Finset Key)
    (cteNfes cteComplementar : Key → Finset Key)
    (hdom : ∀ u, u ∉ domN → cteNfes u = ∅)
    (hsymm : ∀ a b, b ∈ cteComplementar a ↔ a ∈ cteComplementar b) :
    (∀ a b, b ∈ cteComplementar a →
      cteNfes a ⊆ expandCteNfes domN cteNfes cteComplementar b) ∧
    (∀ k, cteComplementar k = ∅ →
      expandCteNfes domN cteNfes cteComplementar k = cteNfes k) := by
  constructor
  · intro a b hb x hx
    by_cases ha : a ∈ domN
    · rw [expandCteNfes]
      refine Finset.mem_union_right _ (Finset.mem_biUnion.mpr ?_)
      exact ⟨a, Finset.mem_filter.mpr ⟨ha, hb⟩, hx⟩
    · rw [hdom a ha] at hx
      exact absurd hx (Finset.not_mem_empty x)
  · intro k hk
    have hfil : domN.filter (fun cte => k ∈ cteComplementar cte) = ∅ := by
      rw [Finset.filter_eq_empty_iff]
      intro cte _ hmem
      have hck := (hsymm cte k).mp hmem
      rw [hk] at hck
      exact absurd hck (Finset.not_mem_empty _)
    simp [expandCteNfes, hfil]

/-- Witness for C2 at a concrete input: `B` inherits note `N` from its
partner `A`, and the partner-free key `Z` keeps its (empty) set. -/
theorem expand_cte_nfes_propagates_witness :
    "N" ∈ expandCteNfes exDomN exNfes exComp "B" ∧
      expandCteNfes exDomN exNfes exComp "Z" = exNfes "Z" := by
  have h := expand_cte_nfes_propagates exDomN exNfes exComp
    (by
      intro u hu
      have hne : u ≠ "A" := by
        intro he
        exact hu (by rw [he]; decide)
      simp [exNfes, hne])
    (by
      intro a b
      by_cases ha : a = "A" <;> by_cases hb : b = "A" <;>
        by_cases ha2 : a = "B" <;> by_cases hb2 : b = "B" <;>
        simp_all [exComp])
  refine ⟨h.1 "A" "B" (by decide) (by decide), h.2 "Z" (by decide)⟩

/-- Aggregation of `read_csv_files`: membership in the aggregate key set is
membership in some file's contribution, and the total count is the sum of
the per-file counts. -/
theorem readCsvFilesGo_spec (colunasDoc : List (String × String))
    (keysEfd : Finset Key) (files0 : List CsvFileInput) :
    ∀ l : List CsvFileInput,
      (∀ x, x ∈ (readCsvFilesGo colunasDoc keysEfd files0 l).1 ↔
        ∃ f ∈ l, x ∈ (fileResult colunasDoc keysEfd (isFirstFile files0 f) f).1) ∧
      (readCsvFilesGo colunasDoc keysEfd files0 l).2 =
        (l.map fun f =>
          (fileResult colunasDoc keysEfd (isFirstFile files0 f) f).2).sum := by
  intro l
  induction l with
  | nil => simp [readCsvFilesGo]
  | cons f rest ih =>
    constructor
    · intro x
      rw [readCsvFilesGo]
      simp only [Finset.mem_union, List.mem_cons]
      rw [(ih.1 x)]
      constructor
      · rintro (hx | ⟨g, hg, hxg⟩)
        · exact ⟨f, Or.inl rfl, hx⟩
        · exact ⟨g, Or.inr hg, hxg⟩
      · rintro ⟨g, rfl | hg, hxg⟩
        · exact Or.inl hxg
        · exact Or.inr ⟨g, hg, hxg⟩
    · rw [readCsvFilesGo]
      simp only [List.map_cons, List.sum_cons]
      rw [ih.2]

/-- Claim C7: a per-file failure inside `read_csv_files` does not abort the
other files — the failing file contributes the empty key set and count
zero, and the aggregate is the union of the per-file key sets together with
the sum of the per-file counts; a file whose header misses a required
column fails with exactly that error. -/
theorem read_csv_files_isolates (colunasDoc : List (String × String))
    (files : List CsvFileInput) (keysEfd : Finset Key) :
    (∀ x, x ∈ (readCsvFiles colunasDoc files keysEfd).1 ↔
      ∃ f ∈ files, x ∈ (fileResult colunasDoc keysEfd (isFirstFile files f) f).1) ∧
    ((readCsvFiles colunasDoc files keysEfd).2 =
      (files.map fun f =>
        (fileResult colunasDoc keysEfd (isFirstFile files f) f).2).sum) ∧
    (∀ f e, processSingleCsv colunasDoc f keysEfd (isFirstFile files f) = .error e →
      fileResult colunasDoc keysEfd (isFirstFile files f) f = (∅, 0)) ∧
    (∀ (f : CsvFileInput) (b : Bool) (col : String),
      (f.header.any fun name => name.data.all isWs) = false →
      firstDup f.header ∅ = none →
      (colunasDoc.map Prod.snd).find? (fun e => !(f.header.contains e)) = some col →
      processSingleCsv colunasDoc f keysEfd b =
        .error (.missingEssentialColumn f.arquivo col .docFiscais)) := by
  refine ⟨(readCsvFilesGo_spec colunasDoc keysEfd files files).1,
    (readCsvFilesGo_spec colunasDoc keysEfd files files).2, ?_, ?_⟩
  · intro f e he
    rw [fileResult, he]
  · intro f b col hblank hdup hmiss
    rw [processSingleCsv, verificarColunas, hblank, hdup, hmiss]
    simp

/-- Witness for C7 at a concrete input: a file whose header lacks the key
column fails with the missing-column error (and so contributes nothing). -/
theorem read_csv_files_isolates_witness :
    processSingleCsv exColsD exBadFile {exKey44} false =
      .error (.missingEssentialColumn "bad.csv" "chave" .docFiscais) := by
  have h := read_csv_files_isolates exColsD [exGoodFile, exBadFile] {exKey44}
  exact h.2.2.2 exBadFile false "chave" (by decide) (by decide) (by decide)

/-- Membership after one ledger row: the old keys, or the row's well-formed
key, or a key one hop from it in one of the three reference maps. -/
theorem efdRowStep_mem (nfeCtes cteNfes cteComplementar : Key → Finset Key)
    (idxChave : Nat) (acc : Finset Key) (record : List String) (x : Key) :
    x ∈ efdRowStep nfeCtes cteNfes cteComplementar idxChave acc record ↔
      x ∈ acc ∨ ∃ content, record.get? idxChave = some content ∧
        wf44 (cleanDigits content) = true ∧
        (x = cleanDigits content ∨
          x ∈ nfeCtes (cleanDigits content) ∪ cteNfes (cleanDigits content) ∪
            cteComplementar (cleanDigits content)) := by
  rw [efdRowStep]
  cases hget : record.get? idxChave with
  | none => simp
  | some content =>
    by_cases hwf : wf44 (cleanDigits content) = true
    · simp only [hwf, if_true, addCorrelatedKeysToInfo, Finset.mem_insert,
        Finset.mem_union, Option.some.injEq]
      constructor
      · rintro (rfl | hx)
        · exact Or.inr ⟨content, rfl, hwf, Or.inl rfl⟩
        · rcases hx with ((hx | hx) | hx) | hx
          · exact Or.inl hx
          · exact Or.inr ⟨content, rfl, hwf, Or.inr (Or.inl (Or.inl hx))⟩
          · exact Or.inr ⟨content, rfl, hwf, Or.inr (Or.inl (Or.inr hx))⟩
          · exact Or.inr ⟨content, rfl, hwf, Or.inr (Or.inr hx)⟩
      · rintro (hx | ⟨c, rfl, hwfc, hcase⟩)
        · exact Or.inr (Or.inl (Or.inl (Or.inl hx)))
        · rcases hcase with rfl | (hx | hx) | hx
          · exact Or.inl rfl
          · exact Or.inr (Or.inl (Or.inl (Or.inr hx)))
          · exact Or.inr (Or.inl (Or.inr hx))
          · exact Or.inr (Or.inr hx)
    · simp only [hwf, if_false, Option.some.injEq]
      constructor
      · exact Or.inl
      · rintro (hx | ⟨c, rfl, hwfc, _⟩)
        · exact hx
        · exact absurd hwfc hwf

/-- The ledger record loop, on success, accumulates exactly the per-row
contributions. -/
theorem efdRows_ok_mem (arquivo : String) (esperado idxChave : Nat)
    (nfeCtes cteNfes cteComplementar : Key → Finset Key) :
    ∀ (rows : List (List String)) (linha : Nat) (acc s : Finset Key),
      efdRows arquivo esperado idxChave nfeCtes cteNfes cteComplementar
        linha rows acc = .ok s →
      ∀ x, x ∈ s ↔ x ∈ acc ∨ ∃ record ∈ rows, ∃ content,
        record.get? idxChave = some content ∧
        wf44 (cleanDigits content) = true ∧
        (x = cleanDigits content ∨
          x ∈ nfeCtes (cleanDigits content) ∪ cteNfes (cleanDigits content) ∪
            cteComplementar (cleanDigits content)) := by
  intro rows
  induction rows with
  | nil =>
    intro linha acc s hok x
    rw [efdRows] at hok
    injection hok with hok
    subst hok
    simp
  | cons record rest ih =>
    intro linha acc s hok x
    rw [efdRows] at hok
    by_cases hlen : record.length ≠ esperado
    · rw [if_pos hlen] at hok
      exact absurd hok (by simp)
    · rw [if_neg hlen] at hok
      rw [ih (linha + 1) _ s hok x, efdRowStep_mem]
      constructor
      · rintro ((hx | ⟨content, hc, hw, hcase⟩) | ⟨r, hr, hrest⟩)
        · exact Or.inl hx
        · exact Or.inr ⟨record, List.mem_cons_self _ _, content, hc, hw, hcase⟩
        · exact Or.inr ⟨r, List.mem_cons_of_mem _ hr, hrest⟩
      · rintro (hx | ⟨r, hr, hrest⟩)
        · exact Or.inl (Or.inl hx)
        · rcases List.mem_cons.mp hr with rfl | hr
          · exact Or.inl (Or.inr hrest)
          · exact Or.inr ⟨r, hr, hrest⟩

/-- Claim C4: on a successfully read ledger, `get_efd_info` emits, for every
data row whose key column cleans to a well-formed 44-digit key `K`, exactly
`K` together with the keys one hop from `K` in the three reference maps
(`nfe_ctes`, `cte_nfes`, `cte_complementar`); a row whose key is in none of
the three maps contributes exactly its own key. -/
theorem get_efd_info_emits (arquivo : String)
    (colunasEfd : List (String × String)) (header : List String)
    (rows : List (List String))
    (nfeCtes cteNfes cteComplementar : Key → Finset Key) (s : Finset Key)
    (target : String) (idxChave : Nat)
    (hlook : colunasEfd.lookup "chave_documento" = some target)
    (hidx : header.indexOf? target = some idxChave)
    (hok : getEfdInfo arquivo colunasEfd header rows
      nfeCtes cteNfes cteComplementar = .ok s) :
    (∀ x, x ∈ s ↔ ∃ record ∈ rows, ∃ content,
      record.get? idxChave = some content ∧
      wf44 (cleanDigits content) = true ∧
      (x = cleanDigits content ∨
        x ∈ nfeCtes (cleanDigits content) ∪ cteNfes (cleanDigits content) ∪
          cteComplementar (cleanDigits content))) ∧
    (∀ (acc : Finset Key) (record : List String) (content : String),
      record.get? idxChave = some content →
      wf44 (cleanDigits content) = true →
      nfeCtes (cleanDigits content) = ∅ →
      cteNfes (cleanDigits content) = ∅ →
      cteComplementar (cleanDigits content) = ∅ →
      efdRowStep nfeCtes cteNfes cteComplementar idxChave acc record =
        insert (cleanDigits content) acc) := by
  constructor
  · have hok2 : efdRows arquivo header.length idxChave nfeCtes cteNfes
        cteComplementar 2 rows ∅ = .ok s := by
      rw [getEfdInfo] at hok
      cases hval : verificarColunas header .efdContrib (colunasEfd.map Prod.snd)
          arquivo with
      | error e => rw [hval] at hok; exact absurd hok (by simp)
      | ok u => simp only [hval, hlook, hidx] at hok; exact hok
    intro x
    rw [efdRows_ok_mem arquivo header.length idxChave nfeCtes cteNfes
      cteComplementar rows 2 ∅ s hok2 x]
    simp
  · intro acc record content hget hwf h1 h2 h3
    rw [efdRowStep, hget]
    simp only [hwf, if_true, addCorrelatedKeysToInfo, h1, h2, h3]
    simp

/-- Witness for C4 at a concrete input: the example ledger row's key, absent
from every reference map, is emitted into the result set. -/
theorem get_efd_info_emits_witness :
    exKey44 ∈ exS ∧
      efdRowStep noMap noMap noMap 0 ∅ [exKey44] = insert exKey44 ∅ := by
  have h := get_efd_info_emits "efd.csv" exColsE exHeaderE exRowsE
    noMap noMap noMap exS "chave" 0 (by decide) (by decide) rfl
  constructor
  · exact (h.1 exKey44).mpr ⟨[exKey44], by decide, exKey44, by decide, by decide,
      Or.inl (by decide)⟩
  · exact h.2 ∅ [exKey44] exKey44 (by decide) (by decide) (by decide) (by decide)
      (by decide)

/-- The ledger record loop stops at the first row with the wrong field
count, reporting that row's line number and both counts. -/
theorem efdRows_first_bad (arquivo : String) (esperado idxChave : Nat)
    (nfeCtes cteNfes cteComplementar : Key → Finset Key) :
    ∀ (rows : List (List String)) (i linha : Nat) (row : List String)
      (acc : Finset Key),
      rows.get? i = some row → row.length ≠ esperado →
      (∀ j r, j < i → rows.get? j = some r → r.length = esperado) →
      efdRows arquivo esperado idxChave nfeCtes cteNfes cteComplementar
        linha rows acc =
        .error (.columnCount arquivo (linha + i) esperado row.length) := by
  intro rows
  induction rows with
  | nil => intro i linha row acc hget; simp at hget
  | cons r rest ih =>
    intro i linha row acc hget hbad hgood
    cases i with
    | zero =>
      obtain rfl : r = row := by simpa using hget
      rw [efdRows, if_pos hbad, Nat.add_zero]
    | succ n =>
      have hr : r.length = esperado := hgood 0 r (Nat.succ_pos n) rfl
      rw [efdRows, if_neg (by rw [hr]; exact fun h => h rfl)]
      have := ih n (linha + 1) row
        (efdRowStep nfeCtes cteNfes cteComplementar idxChave acc r)
        (by simpa using hget) hbad
        (fun j s hj hs => hgood (j + 1) s (Nat.succ_lt_succ hj) (by simpa using hs))
      rw [this, Nat.add_assoc, Nat.add_comm 1 n]

/-- Claim C9: a data row of the ledger whose field count differs from the
header's makes `get_efd_info` fail with an error carrying the file path,
the 1-based row number (header is row 1), the expected column count and the
found column count. -/
theorem get_efd_info_row_count_error (arquivo : String)
    (colunasEfd : List (String × String)) (header : List String)
    (rows : List (List String))
    (nfeCtes cteNfes cteComplementar : Key → Finset Key)
    (target : String) (idxChave : Nat) (i : Nat) (row : List String)
    (hval : verificarColunas header .efdContrib (colunasEfd.map Prod.snd)
      arquivo = .ok ())
    (hlook : colunasEfd.lookup "chave_documento" = some target)
    (hidx : header.indexOf? target = some idxChave)
    (hget : rows.get? i = some row)
    (hbad : row.length ≠ header.length)
    (hgood : ∀ j r, j < i → rows.get? j = some r → r.length = header.length) :
    getEfdInfo arquivo colunasEfd header rows nfeCtes cteNfes cteComplementar =
      .error (.columnCount arquivo (2 + i) header.length row.length) := by
  rw [getEfdInfo]
  simp only [hval, hlook, hidx]
  exact efdRows_first_bad arquivo header.length idxChave nfeCtes cteNfes
    cteComplementar rows i 2 row ∅ hget hbad hgood

/-- Witness for C9 at a concrete input: the second data row of the example
ledger has 1 field instead of 2, and the run fails with the error carrying
the file, row number 3 (the header is row 1), expected count 2 and found
count 1. -/
theorem get_efd_info_row_count_error_witness :
    getEfdInfo "efd.csv" exColsE exHeaderE2 exRowsBad noMap noMap noMap =
      .error (.columnCount "efd.csv" 3 2 1) := by
  have h := get_efd_info_row_count_error "efd.csv" exColsE exHeaderE2 exRowsBad
    noMap noMap noMap "chave" 0 1 ["bad"] rfl (by decide) (by decide)
    (by decide) (by decide)
    (by
      intro j r hj hr
      interval_cases j
      · simp only [exRowsBad] at hr
        injection hr with hr
        rw [← hr]
        decide)
  exact h

/-- A character whose code point is at most 127 occupies one UTF-8 byte. -/
theorem utf8Size_ascii (c : Char) (h : c.toNat ≤ 127) : c.utf8Size = 1 := by
  rw [Char.utf8Size]
  have hle : c.val ≤ UInt32.ofNatCore 127 Char.utf8Size.proof_1 := by
    show c.val.toNat ≤ _
    exact h
  rw [if_pos hle]

/-- ASCII digits have code points at most 127. -/
theorem isDigit_toNat_le (c : Char) (h : c.isDigit = true) : c.toNat ≤ 127 := by
  rw [Char.isDigit] at h
  simp only [Bool.and_eq_true, decide_eq_true_eq] at h
  have h2 : c.val ≤ 57 := h.2
  have h3 : c.val.toNat ≤ 57 := h2
  exact Nat.le_trans h3 (by omega)

/-- The UTF-8 byte count of a list of ASCII digit characters is its
length. -/
theorem sum_utf8_digits (l : List Char) (h : ∀ c ∈ l, c.isDigit = true) :
    (l.map Char.utf8Size).sum = l.length := by
  induction l with
  | nil => rfl
  | cons c rest ih =>
    simp only [List.map_cons, List.sum_cons, List.length_cons]
    rw [utf8Size_ascii c (isDigit_toNat_le c (h c (by simp))),
      ih (fun x hx => h x (List.mem_cons_of_mem _ hx))]
    omega

/-- The byte length of a string of ASCII digits is its character count. -/
theorem byteLen_of_digits (s : String) (h : s.data.all Char.isDigit = true) :
    byteLen s = s.data.length := by
  rw [byteLen]
  rw [List.all_eq_true] at h
  exact sum_utf8_digits _ (fun c hc => h c hc)

/-- Every key the fiscal-document record loop collects is a string of
exactly 44 ASCII digits (or came in with the accumulator). -/
theorem docRows_ok_found (esperado idx : Nat) (filter : Finset Key) :
    ∀ (rows : List (List String)) (found : Finset Key) (count : Nat)
      (staged st : List (List String)) (fnd : Finset Key) (cnt : Nat),
      docRows esperado idx filter rows found count staged = .ok (st, fnd, cnt) →
      ∀ x ∈ fnd, x ∈ found ∨
        (x.data.length = 44 ∧ x.data.all Char.isDigit = true) := by
  intro rows
  induction rows with
  | nil =>
    intro found count staged st fnd cnt hok x hx
    rw [docRows] at hok
    injection hok with hok
    obtain ⟨rfl, rfl, rfl⟩ : staged = st ∧ found = fnd ∧ count = cnt := by
      refine ⟨congrArg Prod.fst hok, ?_, ?_⟩
      · exact congrArg (fun p => p.snd.fst) hok
      · exact congrArg (fun p => p.snd.snd) hok
    exact Or.inl hx
  | cons record rest ih =>
    intro found count staged st fnd cnt hok x hx
    rw [docRows] at hok
    by_cases hlen : record.length ≠ esperado
    · rw [if_pos hlen] at hok
      exact absurd hok (by simp)
    · rw [if_neg hlen] at hok
      revert hok
      cases hget : record.get? idx with
      | none =>
        intro hok
        exact ih found (count + 1) staged st fnd cnt hok x hx
      | some content =>
        simp only []
        by_cases hcond :
            (byteLen (String.mk (content.data.filter Char.isDigit)) == 44 &&
              decide ((String.mk (content.data.filter Char.isDigit)) ∈ filter))
              = true
        · rw [if_pos hcond]
          intro hok
          rcases ih _ _ _ _ _ _ hok x hx with hxin | hprops
          · rcases Finset.mem_insert.mp hxin with rfl | hxf
            · refine Or.inr ⟨?_, ?_⟩
              · have hall : (String.mk (content.data.filter Char.isDigit)).data.all
                    Char.isDigit = true := by
                  rw [List.all_eq_true]
                  intro c hc
                  exact (List.mem_filter.mp hc).2
                have hcond2 := hcond
                rw [Bool.and_eq_true] at hcond2
                have hbl := beq_iff_eq.mp hcond2.1
                rw [byteLen_of_digits _ hall] at hbl
                exact hbl
              · rw [List.all_eq_true]
                intro c hc
                exact (List.mem_filter.mp hc).2
            · exact Or.inl hxf
          · exact Or.inr hprops
        · rw [if_neg hcond]
          intro hok
          exact ih found (count + 1) staged st fnd cnt hok x hx

/-- Successful `get_efd_info` runs reduce to the record loop. -/
theorem getEfdInfo_ok_elim (arquivo : String)
    (colunasEfd : List (String × String)) (header : List String)
    (rows : List (List String))
    (nfeCtes cteNfes cteComplementar : Key → Finset Key) (s : Finset Key)
    (target : String) (idxChave : Nat)
    (hlook : colunasEfd.lookup "chave_documento" = some target)
    (hidx : header.indexOf? target = some idxChave)
    (hok : getEfdInfo arquivo colunasEfd header rows
      nfeCtes cteNfes cteComplementar = .ok s) :
    efdRows arquivo header.length idxChave nfeCtes cteNfes cteComplementar
      2 rows ∅ = .ok s := by
  rw [getEfdInfo] at hok
  cases hval : verificarColunas header .efdContrib (colunasEfd.map Prod.snd)
      arquivo with
  | error e => rw [hval] at hok; exact absurd hok (by simp)
  | ok u => simp only [hval, hlook, hidx] at hok; exact hok

/-- Claim C5 (amended): a ledger row whose key column does not clean to a
44-digit string contributes no key; every key of the ledger key set is a
string of 44 regex-`\d` digit characters (given reference maps whose
values are such strings); and every key of the matched-key set is a string
of 44 ASCII digits.  The original claim said "ASCII digits" for the ledger
set too, which the counterexample refutes. -/
theorem key_wellformedness (arquivo : String)
    (colunasEfd : List (String × String)) (header : List String)
    (rows : List (List String))
    (nfeCtes cteNfes cteComplementar : Key → Finset Key) (s : Finset Key)
    (target : String) (idxChave : Nat)
    (hlook : colunasEfd.lookup "chave_documento" = some target)
    (hidx : header.indexOf? target = some idxChave)
    (hmaps : ∀ k x, x ∈ nfeCtes k ∪ cteNfes k ∪ cteComplementar k →
      x.data.length = 44 ∧ x.data.all isRegexDigit = true)
    (hok : getEfdInfo arquivo colunasEfd header rows
      nfeCtes cteNfes cteComplementar = .ok s) :
    (∀ x ∈ s, x.data.length = 44 ∧ x.data.all isRegexDigit = true) ∧
    (∀ (esperado idx : Nat) (filter : Finset Key) (rows2 : List (List String))
      (st : List (List String)) (fnd : Finset Key) (cnt : Nat),
      docRows esperado idx filter rows2 ∅ 0 [] = .ok (st, fnd, cnt) →
      ∀ x ∈ fnd, x.data.length = 44 ∧ x.data.all Char.isDigit = true) ∧
    (∀ (idx : Nat) (acc : Finset Key) (record : List String) (content : String),
      record.get? idx = some content →
      wf44 (cleanDigits content) = false →
      efdRowStep nfeCtes cteNfes cteComplementar idx acc record = acc) := by
  refine ⟨?_, ?_, ?_⟩
  · intro x hx
    have hmem := (efdRows_ok_mem arquivo header.length idxChave nfeCtes cteNfes
      cteComplementar rows 2 ∅ s
      (getEfdInfo_ok_elim arquivo colunasEfd header rows nfeCtes cteNfes
        cteComplementar s target idxChave hlook hidx hok) x).mp hx
    rcases hmem with hemp | ⟨record, _, content, _, hwf, hcase⟩
    · exact absurd hemp (Finset.not_mem_empty x)
    · rcases hcase with rfl | hxm
      · rw [wf44, Bool.and_eq_true, beq_iff_eq] at hwf
        exact hwf
      · exact hmaps (cleanDigits content) x hxm
  · intro esperado idx filter rows2 st fnd cnt hok2 x hx
    rcases docRows_ok_found esperado idx filter rows2 ∅ 0 [] st fnd cnt hok2 x hx
      with hemp | hprops
    · exact absurd hemp (Finset.not_mem_empty x)
    · exact hprops
  · intro idx acc record content hget hwf
    rw [efdRowStep, hget]
    simp only [hwf]
    simp

/-- Witness for C5 at a concrete input: the example ledger key is 44 digits,
the matched key of the example document file is 44 ASCII digits, and a
non-digit key column contributes nothing. -/
theorem key_wellformedness_witness :
    (exKey44.data.length = 44 ∧ exKey44.data.all isRegexDigit = true) ∧
      efdRowStep noMap noMap noMap 0 ∅ ["x"] = ∅ := by
  have h := key_wellformedness "efd.csv" exColsE exHeaderE exRowsE
    noMap noMap noMap exS "chave" 0 (by decide) (by decide)
    (by intro k x hx; simp [noMap] at hx) rfl
  constructor
  · exact h.1 exKey44 (by decide)
  · exact h.2.2 0 ∅ ["x"] "x" (by decide) (by decide)

/-- Counterexample for C5 as stated: a ledger row of 44 Arabic-Indic digit
characters enters the ledger key set, but that key is not a string of
ASCII digits. -/
theorem key_wellformedness_cex :
    arabKey ∈ exSArab ∧ arabKey.data.all Char.isDigit = false := by
  constructor
  · decide
  · decide

/-- Byte slicing a list of one-byte characters never hits a boundary
problem: within bounds it yields the corresponding character range. -/
theorem sliceBytesGo_ascii :
    ∀ (l : List Char) (a b : Nat), (∀ c ∈ l, c.utf8Size = 1) → a ≤ b →
      b ≤ l.length → sliceBytesGo l a b = some ((l.drop a).take (b - a)) := by
  intro l
  induction l with
  | nil =>
    intro a b _ hab hb
    simp only [List.length_nil, Nat.le_zero] at hb
    subst hb
    simp only [Nat.le_zero] at hab
    subst hab
    rfl
  | cons c rest ih =>
    intro a b hone hab hb
    have hc1 : c.utf8Size = 1 := hone c (by simp)
    have hrest : ∀ x ∈ rest, x.utf8Size = 1 :=
      fun x hx => hone x (List.mem_cons_of_mem _ hx)
    have hblen : b ≤ rest.length + 1 := by simpa using hb
    cases a with
    | zero =>
      cases b with
      | zero => rfl
      | succ b2 =>
        have heq : sliceBytesGo (c :: rest) 0 (b2 + 1) =
            if b2 + 1 < c.utf8Size then none
            else (sliceBytesGo rest 0 (b2 + 1 - c.utf8Size)).map
              (fun l2 => c :: l2) := rfl
        rw [heq, hc1, if_neg (by omega)]
        rw [ih 0 (b2 + 1 - 1) hrest (Nat.zero_le _) (by omega)]
        simp
    | succ a2 =>
      cases b with
      | zero => exact absurd hab (by omega)
      | succ b2 =>
        have heq : sliceBytesGo (c :: rest) (a2 + 1) (b2 + 1) =
            if a2 + 1 < c.utf8Size then none
            else sliceBytesGo rest (a2 + 1 - c.utf8Size)
              (b2 + 1 - c.utf8Size) := rfl
        rw [heq, hc1, if_neg (by omega)]
        simp only [Nat.add_sub_cancel, List.drop_succ_cons]
        have hx : b2 + 1 - (a2 + 1) = b2 - a2 := by omega
        rw [hx]
        exact ih a2 b2 hrest (by omega) (by omega)

/-- Claim C10 (amended): for every key made of ASCII digits, the byte slice
at 20..22 after the byte-length-at-least-22 filter is in bounds and on
character boundaries (it is the two characters at positions 20 and 21); the
matched-key set always consists of such keys, and the ledger key set does
when the reference maps and ledger rows hold ASCII-digit keys; the
missing-key set is a subset of the filtered ledger key set.  The original
claim asserted this for every key of the ledger key set, which the
Devanagari counterexample refutes. -/
theorem modelo_slice_safe (arquivo : String)
    (colunasEfd : List (String × String)) (header : List String)
    (rows : List (List String))
    (nfeCtes cteNfes cteComplementar : Key → Finset Key) (s : Finset Key)
    (target : String) (idxChave : Nat)
    (hlook : colunasEfd.lookup "chave_documento" = some target)
    (hidx : header.indexOf? target = some idxChave)
    (hmaps : ∀ k x, x ∈ nfeCtes k ∪ cteNfes k ∪ cteComplementar k →
      x.data.all Char.isDigit = true)
    (hrows : ∀ record ∈ rows, ∀ content, record.get? idxChave = some content →
      (cleanDigits content).data.all Char.isDigit = true)
    (hok : getEfdInfo arquivo colunasEfd header rows
      nfeCtes cteNfes cteComplementar = .ok s) :
    (∀ k : String, k.data.all Char.isDigit = true → 22 ≤ byteLen k →
      modeloSlice k = some ((k.data.drop 20).take 2)) ∧
    (∀ x ∈ chavesComModelo s, modeloSlice x = some ((x.data.drop 20).take 2)) ∧
    (∀ (esperado idx : Nat) (filter : Finset Key)
      (rows2 st : List (List String)) (fnd : Finset Key) (cnt : Nat),
      docRows esperado idx filter rows2 ∅ 0 [] = .ok (st, fnd, cnt) →
      ∀ x ∈ chavesComModelo fnd,
        modeloSlice x = some ((x.data.drop 20).take 2)) ∧
    (∀ keysEfd keysDoc : Finset Key,
      chavesNaoEncontradas keysEfd keysDoc ⊆ chavesComModelo keysEfd) := by
  have hbase : ∀ k : String, k.data.all Char.isDigit = true → 22 ≤ byteLen k →
      modeloSlice k = some ((k.data.drop 20).take 2) := by
    intro k hdig hlen
    have hbl : byteLen k = k.data.length := byteLen_of_digits k hdig
    rw [modeloSlice, sliceBytes, if_pos (by omega)]
    have := sliceBytesGo_ascii k.data 20 22
      (fun c hc => utf8Size_ascii c
        (isDigit_toNat_le c (List.all_eq_true.mp hdig c hc)))
      (by omega) (by omega)
    rw [this]
  refine ⟨hbase, ?_, ?_, ?_⟩
  · intro x hx
    rw [chavesComModelo, Finset.mem_filter] at hx
    obtain ⟨hxs, hxlen⟩ := hx
    refine hbase x ?_ hxlen
    have hmem := (efdRows_ok_mem arquivo header.length idxChave nfeCtes cteNfes
      cteComplementar rows 2 ∅ s
      (getEfdInfo_ok_elim arquivo colunasEfd header rows nfeCtes cteNfes
        cteComplementar s target idxChave hlook hidx hok) x).mp hxs
    rcases hmem with hemp | ⟨record, hrec, content, hget, _, hcase⟩
    · exact absurd hemp (Finset.not_mem_empty x)
    · rcases hcase with rfl | hxm
      · exact hrows record hrec content hget
      · exact hmaps (cleanDigits content) x hxm
  · intro esperado idx filter rows2 st fnd cnt hok2 x hx
    rw [chavesComModelo, Finset.mem_filter] at hx
    obtain ⟨hxs, hxlen⟩ := hx
    rcases docRows_ok_found esperado idx filter rows2 ∅ 0 [] st fnd cnt hok2 x hxs
      with hemp | hprops
    · exact absurd hemp (Finset.not_mem_empty x)
    · exact hbase x hprops.2 hxlen
  · intro keysEfd keysDoc
    rw [chavesNaoEncontradas]
    exact Finset.filter_subset _ _

/-- Witness for C10 at a concrete input: slicing the example ledger key at
bytes 20..22 succeeds and yields its model code characters. -/
theorem modelo_slice_safe_witness : modeloSlice exKey44 = some ['3', '3'] := by
  have h := modelo_slice_safe "efd.csv" exColsE exHeaderE exRowsE
    noMap noMap noMap exS "chave" 0 (by decide) (by decide)
    (by intro k x hx; simp [noMap] at hx)
    (by
      intro record hr content hc
      simp only [exRowsE, List.mem_singleton] at hr
      subst hr
      simp only [List.get?] at hc
      injection hc with hc
      rw [← hc]
      decide)
    rfl
  rw [h.1 exKey44 (by decide) (by decide)]
  decide

/-- Counterexample for C10 as stated: the Devanagari-digit ledger key passes
the byte-length filter but byte 20 is not a character boundary, so the
slice `&key[20..22]` panics. -/
theorem modelo_slice_safe_cex :
    devKey ∈ chavesComModelo exSDev ∧ modeloSlice devKey = none := by
  constructor
  · decide
  · decide

/-- The record loop stages exactly the matching rows, each with its fields
passed through `stageField`, and counts every row. -/
theorem docRows_ok_staged (esperado idx : Nat) (filter : Finset Key) :
    ∀ (rows : List (List String)) (found : Finset Key) (count : Nat)
      (staged st : List (List String)) (fnd : Finset Key) (cnt : Nat),
      docRows esperado idx filter rows found count staged = .ok (st, fnd, cnt) →
      st = staged ++ (rows.filter (fun r => docMatch filter idx r)).map
        (fun r => r.map stageField) ∧
      cnt = count + rows.length := by
  intro rows
  induction rows with
  | nil =>
    intro found count staged st fnd cnt hok
    rw [docRows] at hok
    injection hok with hok
    refine ⟨?_, ?_⟩
    · have := congrArg Prod.fst hok
      simpa using this.symm
    · have := congrArg (fun p => p.snd.snd) hok
      simpa using this.symm
  | cons record rest ih =>
    intro found count staged st fnd cnt hok
    rw [docRows] at hok
    by_cases hlen : record.length ≠ esperado
    · rw [if_pos hlen] at hok
      exact absurd hok (by simp)
    · rw [if_neg hlen] at hok
      revert hok
      cases hget : record.get? idx with
      | none =>
        intro hok
        have hm : docMatch filter idx record = false := by
          rw [docMatch, hget]
        obtain ⟨h1, h2⟩ := ih _ _ _ _ _ _ hok
        refine ⟨?_, ?_⟩
        · rw [h1, List.filter_cons, hm]
          simp
        · rw [h2, List.length_cons]
          omega
      | some content =>
        simp only []
        by_cases hcond :
            (byteLen (String.mk (content.data.filter Char.isDigit)) == 44 &&
              decide ((String.mk (content.data.filter Char.isDigit)) ∈ filter))
              = true
        · rw [if_pos hcond]
          intro hok
          have hm : docMatch filter idx record = true := by
            rw [docMatch, hget]
            exact hcond
          obtain ⟨h1, h2⟩ := ih _ _ _ _ _ _ hok
          refine ⟨?_, ?_⟩
          · rw [h1, List.filter_cons, hm]
            simp
          · rw [h2, List.length_cons]
            omega
        · rw [if_neg hcond]
          intro hok
          have hm : docMatch filter idx record = false := by
            rw [docMatch, hget]
            exact Bool.not_eq_true _ ▸ (by simpa using hcond)
          obtain ⟨h1, h2⟩ := ih _ _ _ _ _ _ hok
          refine ⟨?_, ?_⟩
          · rw [h1, List.filter_cons, hm]
            simp
          · rw [h2, List.length_cons]
            omega

/-- Successful `process_single_csv` runs reduce to the record loop. -/
theorem processSingleCsv_ok_elim (colunasDoc : List (String × String))
    (f : CsvFileInput) (filter : Finset Key) (isFirst : Bool)
    (staged : List (List String)) (found : Finset Key) (count : Nat)
    (target : String) (idx : Nat)
    (hlook : colunasDoc.lookup "chave44_digitos" = some target)
    (hidx : f.header.indexOf? target = some idx)
    (hok : processSingleCsv colunasDoc f filter isFirst =
      .ok (staged, found, count)) :
    docRows f.header.length idx filter f.rows ∅ 0
      (if isFirst then [f.header] else []) = .ok (staged, found, count) := by
  rw [processSingleCsv] at hok
  cases hval : verificarColunas f.header .docFiscais (colunasDoc.map Prod.snd)
      f.arquivo with
  | error e => rw [hval] at hok; exact absurd hok (by simp)
  | ok u => simp only [hval, hlook, hidx] at hok; exact hok

/-- Claim C8 (amended): the staging output of `process_single_csv` holds
exactly the matched rows with every field passed through the staging
normalisation, joined by the per-file delimiter `;`; a field containing two
consecutive ASCII spaces has all its whitespace runs of length 2 or more
collapsed to single spaces, while a field without two consecutive spaces is
staged verbatim (the "fast path").  The original claim said every staged
field is whitespace-collapsed, which the double-tab counterexample
refutes. -/
theorem process_single_csv_staging (colunasDoc : List (String × String))
    (f : CsvFileInput) (filter : Finset Key) (isFirst : Bool)
    (staged : List (List String)) (found : Finset Key) (count : Nat)
    (target : String) (idx : Nat)
    (hlook : colunasDoc.lookup "chave44_digitos" = some target)
    (hidx : f.header.indexOf? target = some idx)
    (hok : processSingleCsv colunasDoc f filter isFirst =
      .ok (staged, found, count)) :
    staged = (if isFirst then [f.header] else []) ++
      (f.rows.filter (fun r => docMatch filter idx r)).map
        (fun r => r.map stageField) ∧
    stagedLines staged =
      staged.map (fun record => String.intercalate ";" record) ∧
    (∀ field : String, hasDoubleSpace field.data = true →
      stageField field = collapseWs field) ∧
    (∀ field : String, hasDoubleSpace field.data = false →
      stageField field = field) := by
  refine ⟨?_, rfl, ?_, ?_⟩
  · exact (docRows_ok_staged f.header.length idx filter f.rows ∅ 0 _ staged
      found count (processSingleCsv_ok_elim colunasDoc f filter isFirst staged
        found count target idx hlook hidx hok)).1
  · intro field hds
    rw [stageField, if_pos hds]
  · intro field hds
    rw [stageField, if_neg (by rw [hds]; exact Bool.false_ne_true)]

/-- Witness for C8 at a concrete input: the double-tab file stages its one
matching row with the fields passed through `stageField`. -/
theorem process_single_csv_staging_witness :
    [[exKey44, "a\t\tb"]] =
      (exTabFile.rows.filter (fun r => docMatch {exKey44} 0 r)).map
        (fun r => r.map stageField) := by
  have h := process_single_csv_staging exColsD exTabFile {exKey44} false
    [[exKey44, "a\t\tb"]] {exKey44} 1 "chave" 0 (by decide) (by decide) rfl
  have h1 := h.1
  simpa using h1

/-- Counterexample for C8 as stated: the matched row's field `"a\t\tb"` is
staged verbatim although it contains a whitespace run of length 2 (two
tabs), which `RE_MULTISPACE` would collapse to one space. -/
theorem process_single_csv_staging_cex :
    processSingleCsv exColsD exTabFile {exKey44} false =
      .ok ([[exKey44, "a\t\tb"]], {exKey44}, 1) ∧
    collapseWs "a\t\tb" = "a b" ∧ "a\t\tb" ≠ "a b" := by
  refine ⟨rfl, by decide, by decide⟩

/-- The collapsing pass started in the `run` state never emits a leading
whitespace character. -/
theorem collapseRun_run_head :
    ∀ (l : List Char) (h : Char), (collapseRun .run l).head? = some h →
      isWs h = false := by
  intro l
  induction l with
  | nil => intro h hh; simp [collapseRun] at hh
  | cons c rest ih =>
    intro h hh
    rw [collapseRun] at hh
    by_cases hc : isWs c = true
    · rw [if_pos hc] at hh
      exact ih h hh
    · rw [if_neg hc] at hh
      injection hh with hh
      subst hh
      exact Bool.not_eq_true _ ▸ hc

/-- The output of the collapsing pass has no two adjacent whitespace
characters, whichever state it starts in. -/
theorem collapseRun_chain :
    ∀ l : List Char,
      List.Chain' (fun a b => ¬(isWs a = true ∧ isWs b = true))
        (collapseRun .norm l) ∧
      List.Chain' (fun a b => ¬(isWs a = true ∧ isWs b = true))
        (collapseRun .run l) ∧
      ∀ w, List.Chain' (fun a b => ¬(isWs a = true ∧ isWs b = true))
        (collapseRun (.one w) l) := by
  intro l
  induction l with
  | nil => refine ⟨by simp [collapseRun], by simp [collapseRun], ?_⟩
           intro w; simp [collapseRun]
  | cons c rest ih =>
    obtain ⟨ihn, ihr, iho⟩ := ih
    have hcons : ∀ (a : Char) (l2 : List Char), isWs a = false →
        List.Chain' (fun x y => ¬(isWs x = true ∧ isWs y = true)) l2 →
        List.Chain' (fun x y => ¬(isWs x = true ∧ isWs y = true)) (a :: l2) := by
      intro a l2 ha hl2
      rw [List.chain'_cons']
      exact ⟨fun b _ hab => by rw [ha] at hab; exact absurd hab.1 (by simp), hl2⟩
    refine ⟨?_, ?_, ?_⟩
    · rw [collapseRun]
      by_cases hc : isWs c = true
      · rw [if_pos hc]; exact iho c
      · rw [if_neg hc]
        exact hcons c _ (Bool.not_eq_true _ ▸ hc) ihn
    · rw [collapseRun]
      by_cases hc : isWs c = true
      · rw [if_pos hc]; exact ihr
      · rw [if_neg hc]
        exact hcons c _ (Bool.not_eq_true _ ▸ hc) ihn
    · intro w
      rw [collapseRun]
      by_cases hc : isWs c = true
      · rw [if_pos hc]
        rw [List.chain'_cons']
        refine ⟨fun b hb hab => ?_, ihr⟩
        have := collapseRun_run_head rest b hb
        rw [this] at hab
        exact absurd hab.2 (by simp)
      · rw [if_neg hc]
        rw [List.chain'_cons']
        refine ⟨fun b hb hab => ?_, hcons c _ (Bool.not_eq_true _ ▸ hc) ihn⟩
        have hbc : b = c := by
          simp only [List.head?_cons, Option.mem_def] at hb
          injection hb with hb
          exact hb.symm
        subst hbc
        exact hc hab.2

/-- A list with no two adjacent whitespace characters is unchanged by the
collapsing pass. -/
theorem collapseRun_id_of_chain :
    ∀ l : List Char,
      List.Chain' (fun a b => ¬(isWs a = true ∧ isWs b = true)) l →
      collapseRun .norm l = l := by
  intro l
  induction l with
  | nil => intro _; rfl
  | cons c rest ih =>
    intro hch
    rw [collapseRun]
    by_cases hc : isWs c = true
    · rw [if_pos hc]
      cases rest with
      | nil => rfl
      | cons d rest2 =>
        rw [collapseRun]
        have hpair := List.chain'_cons.mp hch
        have hd : isWs d = false := by
          rcases Bool.eq_false_or_eq_true (isWs d) with hd | hd
          · exact absurd ⟨hc, hd⟩ hpair.1
          · exact hd
        rw [if_neg (by rw [hd]; exact Bool.false_ne_true)]
        have hrest := ih ((List.chain'_cons'.mp hch).2)
        rw [collapseRun] at hrest
        rw [if_neg (by rw [hd]; exact Bool.false_ne_true)] at hrest
        injection hrest with _ htail
        rw [htail]
    · rw [if_neg hc]
      rw [ih ((List.chain'_cons'.mp hch).2)]

/-- Whitespace collapsing is idempotent. -/
theorem collapseWs_idem (s : String) : collapseWs (collapseWs s) = collapseWs s := by
  rw [collapseWs, collapseWs]
  exact congrArg String.mk (collapseRun_id_of_chain _ (collapseRun_chain _).1)

/-- One merged line, under an injective hash and the invariant that the
seen set is the image of the written lines. -/
theorem mergeLine_spec (hash : String → String) (hinj : Function.Injective hash)
    (out : List String) (line : String) :
    mergeLine hash ((out.map hash).toFinset, out) line =
      (((if collapseWs line ∈ out then out
          else out ++ [collapseWs line]).map hash).toFinset,
        if collapseWs line ∈ out then out else out ++ [collapseWs line]) := by
  rw [mergeLine]
  by_cases hmem : collapseWs line ∈ out
  · rw [if_pos hmem]
    have hseen : hash (collapseWs line) ∈ (out.map hash).toFinset := by
      rw [List.mem_toFinset]
      exact List.mem_map.mpr ⟨collapseWs line, hmem, rfl⟩
    simp only [hseen, if_true]
  · rw [if_neg hmem]
    have hseen : hash (collapseWs line) ∉ (out.map hash).toFinset := by
      rw [List.mem_toFinset]
      intro hc
      obtain ⟨y, hy, hxy⟩ := List.mem_map.mp hc
      exact hmem (hinj hxy ▸ hy)
    simp only [hseen, if_false]
    refine Prod.ext ?_ rfl
    show insert (hash (collapseWs line)) (out.map hash).toFinset = _
    rw [List.map_append, List.toFinset_append]
    simp [Finset.union_comm, Finset.insert_eq]

/-- The line fold over one staging file keeps the seen-set invariant and
appends exactly the first-seen normalised lines. -/
theorem mergeLines_fold (hash : String → String)
    (hinj : Function.Injective hash) :
    ∀ (lines out : List String),
      lines.foldl (mergeLine hash) ((out.map hash).toFinset, out) =
        (((lines.foldl (fun acc line => if collapseWs line ∈ acc then acc
            else acc ++ [collapseWs line]) out).map hash).toFinset,
          lines.foldl (fun acc line => if collapseWs line ∈ acc then acc
            else acc ++ [collapseWs line]) out) := by
  intro lines
  induction lines with
  | nil => intro out; rfl
  | cons line rest ih =>
    intro out
    rw [List.foldl_cons, List.foldl_cons, mergeLine_spec hash hinj out line]
    by_cases hmem : collapseWs line ∈ out
    · simp only [hmem, if_true]
      exact ih out
    · simp only [hmem, if_false]
      exact ih (out ++ [collapseWs line])

/-- The file fold of `merge_files`: the final state merges the flattened
staging lines first-seen wins and records every file as deleted. -/
theorem mergeFiles_fold (hash : String → String)
    (hinj : Function.Injective hash) :
    ∀ (files : List (String × List String)) (out deleted : List String),
      files.foldl
        (fun acc file =>
          let st := file.2.foldl (mergeLine hash) (acc.seen, acc.out)
          ⟨st.1, st.2, acc.deleted ++ [file.1]⟩)
        (⟨(out.map hash).toFinset, out, deleted⟩ : MergeAcc) =
      (⟨((((files.map Prod.snd).flatten).foldl
          (fun acc line => if collapseWs line ∈ acc then acc
            else acc ++ [collapseWs line]) out).map hash).toFinset,
        ((files.map Prod.snd).flatten).foldl
          (fun acc line => if collapseWs line ∈ acc then acc
            else acc ++ [collapseWs line]) out,
        deleted ++ files.map Prod.fst⟩ : MergeAcc) := by
  intro files
  induction files with
  | nil =>
    intro out deleted
    simp
  | cons file rest ih =>
    intro out deleted
    rw [List.foldl_cons]
    show rest.foldl _
        (⟨(file.2.foldl (mergeLine hash) ((out.map hash).toFinset, out)).1,
          (file.2.foldl (mergeLine hash) ((out.map hash).toFinset, out)).2,
          deleted ++ [file.1]⟩ : MergeAcc) = _
    rw [mergeLines_fold hash hinj file.2 out]
    rw [ih (file.2.foldl (fun acc line => if collapseWs line ∈ acc then acc
      else acc ++ [collapseWs line]) out) (deleted ++ [file.1])]
    simp only [List.map_cons, List.flatten_cons, List.foldl_append,
      List.append_assoc, List.singleton_append]

/-- First-occurrence folds produce lists without duplicates. -/
theorem keepFirsts_go_nodup :
    ∀ (l acc : List String), acc.Nodup →
      (l.foldl (fun acc x => if x ∈ acc then acc else acc ++ [x]) acc).Nodup := by
  intro l
  induction l with
  | nil => intro acc h; exact h
  | cons x rest ih =>
    intro acc h
    rw [List.foldl_cons]
    by_cases hx : x ∈ acc
    · rw [if_pos hx]; exact ih acc h
    · rw [if_neg hx]
      refine ih _ ?_
      rw [List.nodup_append]
      exact ⟨h, List.nodup_singleton x, by simpa using hx⟩

/-- Membership in a first-occurrence fold. -/
theorem keepFirsts_go_mem :
    ∀ (l acc : List String) (x : String),
      x ∈ l.foldl (fun acc y => if y ∈ acc then acc else acc ++ [y]) acc ↔
        x ∈ acc ∨ x ∈ l := by
  intro l
  induction l with
  | nil => intro acc x; simp
  | cons y rest ih =>
    intro acc x
    rw [List.foldl_cons]
    by_cases hy : y ∈ acc
    · rw [if_pos hy, ih acc x]
      constructor
      · rintro (hx | hx)
        · exact Or.inl hx
        · exact Or.inr (List.mem_cons_of_mem _ hx)
      · rintro (hx | hx)
        · exact Or.inl hx
        · rcases List.mem_cons.mp hx with rfl | hx
          · exact Or.inl hy
          · exact Or.inr hx
    · rw [if_neg hy, ih _ x]
      constructor
      · rintro (hx | hx)
        · rcases List.mem_append.mp hx with hx | hx
          · exact Or.inl hx
          · exact Or.inr (by simpa using Or.inl (by simpa using hx))
        · exact Or.inr (List.mem_cons_of_mem _ hx)
      · rintro (hx | hx)
        · exact Or.inl (List.mem_append.mpr (Or.inl hx))
        · rcases List.mem_cons.mp hx with rfl | hx
          · exact Or.inl (List.mem_append.mpr (Or.inr (by simp)))
          · exact Or.inr hx

/-- Claim C6: under an injective line hash, `merge_files` writes exactly the
first-seen occurrence of every distinct whitespace-normalised staging line,
in first-seen order; the output has no duplicate line, each staged line
appears (normalised) exactly once, no two output lines have the same
normalised content, and every staging file is deleted after merging. -/
theorem merge_files_dedup (hash : String → String)
    (files : List (String × List String))
    (hinj : Function.Injective hash) :
    ((mergeFiles hash files).out =
      keepFirsts (((files.map Prod.snd).flatten).map collapseWs)) ∧
    (mergeFiles hash files).out.Nodup ∧
    (∀ line ∈ (files.map Prod.snd).flatten,
      (mergeFiles hash files).out.count (collapseWs line) = 1) ∧
    (∀ a ∈ (mergeFiles hash files).out, ∀ b ∈ (mergeFiles hash files).out,
      a ≠ b → collapseWs a ≠ collapseWs b) ∧
    (mergeFiles hash files).deleted = files.map Prod.fst := by
  have hmain : mergeFiles hash files =
      (⟨((((files.map Prod.snd).flatten).foldl
          (fun acc line => if collapseWs line ∈ acc then acc
            else acc ++ [collapseWs line]) []).map hash).toFinset,
        ((files.map Prod.snd).flatten).foldl
          (fun acc line => if collapseWs line ∈ acc then acc
            else acc ++ [collapseWs line]) [],
        files.map Prod.fst⟩ : MergeAcc) := by
    rw [mergeFiles]
    have hinit : (⟨∅, [], []⟩ : MergeAcc) =
        (⟨((([] : List String).map hash).toFinset), [], []⟩ : MergeAcc) := rfl
    rw [hinit, mergeFiles_fold hash hinj files [] []]
    simp
  have hkf : (mergeFiles hash files).out =
      keepFirsts (((files.map Prod.snd).flatten).map collapseWs) := by
    rw [hmain, keepFirsts, List.foldl_map]
  have hnodup : (mergeFiles hash files).out.Nodup := by
    rw [hkf, keepFirsts]
    exact keepFirsts_go_nodup _ [] List.nodup_nil
  refine ⟨hkf, hnodup, ?_, ?_, ?_⟩
  · intro line hline
    refine List.count_eq_one_of_mem hnodup ?_
    rw [hkf, keepFirsts, keepFirsts_go_mem]
    exact Or.inr (List.mem_map.mpr ⟨line, hline, rfl⟩)
  · intro a ha b hb hab
    have hcoll : ∀ x ∈ (mergeFiles hash files).out, collapseWs x = x := by
      intro x hx
      rw [hkf, keepFirsts, keepFirsts_go_mem] at hx
      rcases hx with hx | hx
      · exact absurd hx (List.not_mem_nil x)
      · obtain ⟨y, _, rfl⟩ := List.mem_map.mp hx
        exact collapseWs_idem y
    rw [hcoll a ha, hcoll b hb]
    exact hab
  · rw [hmain]

/-- Witness for C6 at a concrete input: merging the two example staging
files keeps one copy of the shared normalised line, in first-seen order,
and deletes both files. -/
theorem merge_files_dedup_witness :
    (mergeFiles id exMergeFiles).out = ["a b", "c", "d"] ∧
      (mergeFiles id exMergeFiles).deleted = ["f1", "f2"] := by
  have h := merge_files_dedup id exMergeFiles (fun a b hab => hab)
  refine ⟨?_, ?_⟩
  · rw [h.1]
    decide
  · rw [h.2.2.2.2]
    decide

/-- One complementary-loader line adds exactly its symmetric delta. -/
theorem compLine_apply (m : Key → Finset Key) (line : String) (k : Key) :
    compLine m line k = m k ∪ lineDelta line k := by
  rw [compLine, lineDelta]
  cases hx : extract44 line with
  | nil => simp
  | cons t1 tl =>
    cases tl with
    | nil => simp
    | cons t2 tl2 =>
      dsimp only
      by_cases hcond : (ehModelo t1 "57" && ehModelo t2 "57" && t1 != t2) = true
      · rw [if_pos hcond, if_pos hcond, addEdge]
        have hne : t1 ≠ t2 := by
          simp only [Bool.and_eq_true, bne_iff_ne] at hcond
          exact hcond.2
        by_cases hk1 : k = t1
        · subst hk1
          rw [if_pos rfl, if_pos rfl, if_neg hne]
          simp [Finset.insert_eq, Finset.union_comm]
        · rw [if_neg hk1, if_neg hk1]
          by_cases hk2 : k = t2
          · subst hk2
            rw [if_pos rfl, if_pos rfl]
            simp [Finset.insert_eq, Finset.union_comm]
          · rw [if_neg hk2, if_neg hk2]
            simp
      · rw [if_neg hcond, if_neg hcond]
        simp

/-- Two complementary-loader lines commute: set union is commutative and
associative. -/
theorem compLine_comm (m : Key → Finset Key) (l1 l2 : String) :
    compLine (compLine m l1) l2 = compLine (compLine m l2) l1 := by
  funext k
  rw [compLine_apply, compLine_apply, compLine_apply, compLine_apply,
    Finset.union_assoc, Finset.union_assoc, Finset.union_comm (lineDelta l1 k)]

/-- The complementary-loader fold is invariant under permutation of the
lines. -/
theorem lerChave_perm {l1 l2 : List String} (hperm : l1.Perm l2) :
    ∀ m, l1.foldl compLine m = l2.foldl compLine m := by
  induction hperm with
  | nil => intro m; rfl
  | cons x hp ih =>
    intro m
    rw [List.foldl_cons, List.foldl_cons]
    exact ih (compLine m x)
  | swap x y l =>
    intro m
    rw [List.foldl_cons, List.foldl_cons, List.foldl_cons, List.foldl_cons,
      compLine_comm]
  | trans h1 h2 ih1 ih2 =>
    intro m
    rw [ih1, ih2]

/-- The cargo-note loader is the overwrite-fold of its accepted line
entries. -/
theorem lerTodas_entries :
    ∀ (lines : List String) (m0 : Key → Option (Finset Key)),
      lines.foldl
        (fun m line =>
          match nfeLine line with
          | some p => insertOverwrite m p.1 p.2
          | none => m) m0 =
      (lines.filterMap nfeLine).foldl
        (fun m p => insertOverwrite m p.1 p.2) m0 := by
  intro lines
  induction lines with
  | nil => intro m0; rfl
  | cons line rest ih =>
    intro m0
    rw [List.foldl_cons, List.filterMap_cons]
    cases h : nfeLine line with
    | none =>
      simp only [h]
      exact ih m0
    | some p =>
      simp only [h]
      rw [List.foldl_cons]
      exact ih (insertOverwrite m0 p.1 p.2)

/-- An overwrite fold over entries with pairwise-distinct keys reads back
each entry's value, and leaves absent keys at the initial map. -/
theorem overwrite_fold_spec :
    ∀ (entries : List (Key × Finset Key)) (m0 : Key → Option (Finset Key))
      (k : Key), (entries.map Prod.fst).Nodup →
      (k ∉ entries.map Prod.fst →
        entries.foldl (fun m p => insertOverwrite m p.1 p.2) m0 k = m0 k) ∧
      (∀ v, (k, v) ∈ entries →
        entries.foldl (fun m p => insertOverwrite m p.1 p.2) m0 k = some v) := by
  intro entries
  induction entries with
  | nil =>
    intro m0 k _
    exact ⟨fun _ => rfl, fun v hv => absurd hv (List.not_mem_nil _)⟩
  | cons e rest ih =>
    intro m0 k hnodup
    rw [List.map_cons, List.nodup_cons] at hnodup
    obtain ⟨ha, hrest⟩ := hnodup
    rw [List.foldl_cons]
    constructor
    · intro hk
      rw [List.map_cons, List.mem_cons] at hk
      push_neg at hk
      rw [(ih (insertOverwrite m0 e.1 e.2) k hrest).1 hk.2]
      rw [insertOverwrite, if_neg hk.1]
    · intro v hv
      rcases List.mem_cons.mp hv with heq | hv
      · have hk1 : k = e.1 := congrArg Prod.fst heq
        have hv2 : v = e.2 := congrArg Prod.snd heq
        subst hk1
        subst hv2
        rw [(ih (insertOverwrite m0 e.1 e.2) e.1 hrest).1 ha]
        rw [insertOverwrite, if_pos rfl]
      · exact (ih (insertOverwrite m0 e.1 e.2) k hrest).2 v hv

/-- Claim C3 (amended): the complementary loader merges per-line results by
per-key set union, so its map is invariant under any permutation of the
input lines; the cargo-note loader collects per-line pairs into a `HashMap`
whose duplicate first keys overwrite, so its map is permutation-invariant
only when the accepted lines carry pairwise-distinct first keys.  The
original claim asserted union-merging and order independence for both
loaders; the counterexample shows two lines with the same first key make
`ler_todas_as_nfes_deste_cte` order-dependent. -/
theorem loaders_merge_order (lines lines2 : List String)
    (hperm : lines.Perm lines2) :
    (lerChaveComplementarDesteCte lines = lerChaveComplementarDesteCte lines2) ∧
    (((lines.filterMap nfeLine).map Prod.fst).Nodup →
      lerTodasAsNfesDesteCte lines = lerTodasAsNfesDesteCte lines2) := by
  constructor
  · rw [lerChaveComplementarDesteCte, lerChaveComplementarDesteCte]
    exact lerChave_perm hperm _
  · intro hnodup
    have hperm2 : (lines.filterMap nfeLine).Perm (lines2.filterMap nfeLine) :=
      hperm.filterMap _
    have hnodup2 : ((lines2.filterMap nfeLine).map Prod.fst).Nodup :=
      ((hperm2.map Prod.fst).nodup_iff).mp hnodup
    funext k
    rw [lerTodasAsNfesDesteCte, lerTodasAsNfesDesteCte, lerTodas_entries,
      lerTodas_entries]
    by_cases hk : k ∈ (lines.filterMap nfeLine).map Prod.fst
    · obtain ⟨p, hp, hpk⟩ := List.mem_map.mp hk
      have hkv : (k, p.2) ∈ lines.filterMap nfeLine := by
        have : p = (k, p.2) := by
          rw [← hpk]
        rw [← this]
        exact hp
      rw [(overwrite_fold_spec _ _ k hnodup).2 p.2 hkv,
        (overwrite_fold_spec _ _ k hnodup2).2 p.2 (hperm2.mem_iff.mp hkv)]
    · have hk2 : k ∉ (lines2.filterMap nfeLine).map Prod.fst := by
        intro hc
        exact hk (((hperm2.map Prod.fst).mem_iff).mpr hc)
      rw [(overwrite_fold_spec _ _ k hnodup).1 hk,
        (overwrite_fold_spec _ _ k hnodup2).1 hk2]

/-- Witness for C3 at a concrete input: swapping the two example lines does
not change the complementary loader's map. -/
theorem loaders_merge_order_witness :
    lerChaveComplementarDesteCte [exLine1, exLine2] =
      lerChaveComplementarDesteCte [exLine2, exLine1] :=
  (loaders_merge_order [exLine1, exLine2] [exLine2, exLine1]
    (List.Perm.swap exLine2 exLine1 [])).1

/-- Counterexample for C3 as stated: two cargo-note lines with the same
first key overwrite rather than union, so swapping them changes the final
map (each order keeps only the later line's note set). -/
theorem loaders_merge_order_cex :
    lerTodasAsNfesDesteCte [exLine1, exLine2] exCte ≠
      lerTodasAsNfesDesteCte [exLine2, exLine1] exCte ∧
    lerTodasAsNfesDesteCte [exLine1, exLine2] exCte = some {exNfe2} := by
  constructor
  · decide
  · decide

/-- Membership in the symmetrised adjacency, in symmetric form. -/
theorem symmAdj_mem (dom : Finset Key) (m : Key → Finset Key) (a b : Key) :
    b ∈ symmAdj dom m a ↔
      (a ∈ dom ∧ b ∈ m a) ∨ (b ∈ dom ∧ a ∈ m b) := by
  rw [symmAdj, Finset.mem_union, Finset.mem_filter, mapGet]
  by_cases ha : a ∈ dom
  · rw [if_pos ha]
    constructor
    · rintro (h | h)
      · exact Or.inl ⟨ha, h⟩
      · exact Or.inr h
    · rintro (⟨_, h⟩ | h)
      · exact Or.inl h
      · exact Or.inr h
  · rw [if_neg ha]
    constructor
    · rintro (h | h)
      · exact absurd h (Finset.not_mem_empty b)
      · exact Or.inr h
    · rintro (⟨h, _⟩ | h)
      · exact absurd h ha
      · exact Or.inr h

/-- The symmetrised adjacency is symmetric. -/
theorem symmAdj_symm (dom : Finset Key) (m : Key → Finset Key) (a b : Key) :
    b ∈ symmAdj dom m a ↔ a ∈ symmAdj dom m b := by
  rw [symmAdj_mem, symmAdj_mem]
  exact or_comm

/-- Adjacency targets lie in the vertex set. -/
theorem symmAdj_sub_V (dom : Finset Key) (m : Key → Finset Key) (u : Key) :
    symmAdj dom m u ⊆ symmV dom m := by
  intro v hv
  rw [symmAdj_mem] at hv
  rw [symmV, Finset.mem_union]
  rcases hv with ⟨hu, hvm⟩ | ⟨hv2, hum⟩
  · exact Or.inr (Finset.mem_biUnion.mpr ⟨u, hu, hvm⟩)
  · refine Or.inl (Finset.mem_filter.mpr ⟨hv2, ?_⟩)
    intro hempty
    rw [hempty] at hum
    exact absurd hum (Finset.not_mem_empty u)

/-- A key with a neighbour is itself a vertex. -/
theorem symmV_of_mem_adj (dom : Finset Key) (m : Key → Finset Key) (u v : Key)
    (hv : v ∈ symmAdj dom m u) : u ∈ symmV dom m := by
  rw [← symmAdj_symm] at hv
  exact symmAdj_sub_V dom m v hv

/-- Reachability along a symmetric adjacency is symmetric. -/
theorem reach_symm (adj : Key → Finset Key)
    (hsym : ∀ a b, b ∈ adj a ↔ a ∈ adj b) {a b : Key}
    (h : Reach adj a b) : Reach adj b a := by
  induction h with
  | refl => exact Relation.ReflTransGen.refl
  | tail h1 h2 ih =>
    exact Relation.ReflTransGen.head ((hsym _ _).mp h2) ih

/-- Reachability stays inside an adjacency-closed set. -/
theorem reach_closed (adj : Key → Finset Key) (S : Finset Key)
    (hcl : ∀ u ∈ S, ∀ v ∈ adj u, v ∈ S) {a b : Key} (ha : a ∈ S)
    (h : Reach adj a b) : b ∈ S := by
  induction h with
  | refl => exact ha
  | tail h1 h2 ih => exact hcl _ ih _ h2

/-- Unfolding of the DFS on the empty stack. -/
theorem dfs_nil (adj : Key → Finset Key) (V : Finset Key)
    (hV : ∀ u, u ∉ V → adj u = ∅) (visited : Finset Key) (group : List Key) :
    dfs adj V hV [] visited group = (visited, group) := by
  rw [dfs]

/-- Unfolding of the DFS on an already visited stack top. -/
theorem dfs_cons_mem (adj : Key → Finset Key) (V : Finset Key)
    (hV : ∀ u, u ∉ V → adj u = ∅) (current : Key) (rest : List Key)
    (visited : Finset Key) (group : List Key) (h : current ∈ visited) :
    dfs adj V hV (current :: rest) visited group =
      dfs adj V hV rest visited group := by
  rw [dfs, if_pos h]

/-- Unfolding of the DFS on a newly visited stack top. -/
theorem dfs_cons_new (adj : Key → Finset Key) (V : Finset Key)
    (hV : ∀ u, u ∉ V → adj u = ∅) (current : Key) (rest : List Key)
    (visited : Finset Key) (group : List Key) (h : current ∉ visited) :
    dfs adj V hV (current :: rest) visited group =
      dfs adj V hV (toListK (adj current) ++ rest) (insert current visited)
        (group ++ [current]) := by
  rw [dfs, if_neg h]

/-- The DFS only appends to the group, the new members are exactly the new
visited keys, and none of them was visited before. -/
theorem dfs_grows (adj : Key → Finset Key) (V : Finset Key)
    (hV : ∀ u, u ∉ V → adj u = ∅) :
    ∀ (stack : List Key) (visited : Finset Key) (group : List Key),
      ∃ g2 : List Key,
        (dfs adj V hV stack visited group).2 = group ++ g2 ∧
        (dfs adj V hV stack visited group).1 = visited ∪ g2.toFinset ∧
        (∀ x ∈ g2, x ∉ visited) := by
  intro stack visited group
  induction stack, visited, group using dfs.induct adj V hV with
  | case1 visited group =>
    refine ⟨[], ?_, ?_, fun x hx => absurd hx (List.not_mem_nil x)⟩
    · rw [dfs_nil]
      simp
    · rw [dfs_nil]
      simp
  | case2 visited group current rest hcur ih =>
    obtain ⟨g2, h1, h2, h3⟩ := ih
    refine ⟨g2, ?_, ?_, h3⟩
    · rw [dfs_cons_mem adj V hV current rest visited group hcur]
      exact h1
    · rw [dfs_cons_mem adj V hV current rest visited group hcur]
      exact h2
  | case3 visited group current rest hcur ih =>
    obtain ⟨g2, h1, h2, h3⟩ := ih
    refine ⟨current :: g2, ?_, ?_, ?_⟩
    · rw [dfs_cons_new adj V hV current rest visited group hcur, h1]
      simp
    · rw [dfs_cons_new adj V hV current rest visited group hcur, h2]
      ext x
      simp only [Finset.mem_union, Finset.mem_insert, List.toFinset_cons,
        List.mem_toFinset]
      constructor
      · rintro ((rfl | hx) | hx)
        · exact Or.inr (Or.inl rfl)
        · exact Or.inl hx
        · exact Or.inr (Or.inr (by simpa using hx))
      · rintro (hx | (rfl | hx))
        · exact Or.inl (Or.inr hx)
        · exact Or.inl (Or.inl rfl)
        · exact Or.inr (by simpa using hx)
    · intro x hx
      rcases List.mem_cons.mp hx with rfl | hx
      · exact hcur
      · intro hxv
        exact h3 x hx (Finset.mem_insert_of_mem hxv)

/-- Every key on the stack or already visited is visited when the DFS
finishes. -/
theorem dfs_absorb (adj : Key → Finset Key) (V : Finset Key)
    (hV : ∀ u, u ∉ V → adj u = ∅) :
    ∀ (stack : List Key) (visited : Finset Key) (group : List Key) (x : Key),
      (x ∈ stack ∨ x ∈ visited) → x ∈ (dfs adj V hV stack visited group).1 := by
  intro stack visited group
  induction stack, visited, group using dfs.induct adj V hV with
  | case1 visited group =>
    intro x hx
    rw [dfs_nil]
    rcases hx with hx | hx
    · exact absurd hx (List.not_mem_nil x)
    · exact hx
  | case2 visited group current rest hcur ih =>
    intro x hx
    rw [dfs_cons_mem adj V hV current rest visited group hcur]
    refine ih x ?_
    rcases hx with hx | hx
    · rcases List.mem_cons.mp hx with rfl | hx
      · exact Or.inr hcur
      · exact Or.inl hx
    · exact Or.inr hx
  | case3 visited group current rest hcur ih =>
    intro x hx
    rw [dfs_cons_new adj V hV current rest visited group hcur]
    refine ih x ?_
    rcases hx with hx | hx
    · rcases List.mem_cons.mp hx with rfl | hx
      · exact Or.inr (Finset.mem_insert_self x visited)
      · exact Or.inl (List.mem_append.mpr (Or.inr hx))
    · exact Or.inr (Finset.mem_insert_of_mem hx)

/-- Everything the DFS visits was visited before or is reachable from a
stack element reachable from the root. -/
theorem dfs_sound (adj : Key → Finset Key) (V : Finset Key)
    (hV : ∀ u, u ∉ V → adj u = ∅) (root : Key) :
    ∀ (stack : List Key) (visited : Finset Key) (group : List Key),
      (∀ x ∈ stack, Reach adj root x) →
      ∀ x ∈ (dfs adj V hV stack visited group).1,
        x ∈ visited ∨ Reach adj root x := by
  intro stack visited group
  induction stack, visited, group using dfs.induct adj V hV with
  | case1 visited group =>
    intro _ x hx
    rw [dfs_nil] at hx
    exact Or.inl hx
  | case2 visited group current rest hcur ih =>
    intro hstack x hx
    rw [dfs_cons_mem adj V hV current rest visited group hcur] at hx
    exact ih (fun y hy => hstack y (List.mem_cons_of_mem _ hy)) x hx
  | case3 visited group current rest hcur ih =>
    intro hstack x hx
    rw [dfs_cons_new adj V hV current rest visited group hcur] at hx
    have hcurR : Reach adj root current := hstack current (List.mem_cons_self _ _)
    have hstack2 : ∀ y ∈ toListK (adj current) ++ rest, Reach adj root y := by
      intro y hy
      rcases List.mem_append.mp hy with hy | hy
      · have hyadj : y ∈ adj current := by
          rw [toListK] at hy
          exact (Finset.mem_sort _).mp hy
        exact Relation.ReflTransGen.tail hcurR hyadj
      · exact hstack y (List.mem_cons_of_mem _ hy)
    rcases ih hstack2 x hx with hx2 | hx2
    · rcases Finset.mem_insert.mp hx2 with rfl | hx3
      · exact Or.inr hcurR
      · exact Or.inl hx3
    · exact Or.inr hx2

/-- If the visited set is adjacency-closed up to the stack, the final
visited set is adjacency-closed. -/
theorem dfs_closure (adj : Key → Finset Key) (V : Finset Key)
    (hV : ∀ u, u ∉ V → adj u = ∅) :
    ∀ (stack : List Key) (visited : Finset Key) (group : List Key),
      (∀ u ∈ visited, ∀ v ∈ adj u, v ∈ visited ∨ v ∈ stack) →
      ∀ u ∈ (dfs adj V hV stack visited group).1, ∀ v ∈ adj u,
        v ∈ (dfs adj V hV stack visited group).1 := by
  intro stack visited group
  induction stack, visited, group using dfs.induct adj V hV with
  | case1 visited group =>
    intro hinv u hu v hv
    rw [dfs_nil] at hu ⊢
    rcases hinv u hu v hv with h | h
    · exact h
    · exact absurd h (List.not_mem_nil v)
  | case2 visited group current rest hcur ih =>
    intro hinv u hu v hv
    rw [dfs_cons_mem adj V hV current rest visited group hcur] at hu ⊢
    refine ih ?_ u hu v hv
    intro w hw z hz
    rcases hinv w hw z hz with h | h
    · exact Or.inl h
    · rcases List.mem_cons.mp h with rfl | h
      · exact Or.inl hcur
      · exact Or.inr h
  | case3 visited group current rest hcur ih =>
    intro hinv u hu v hv
    rw [dfs_cons_new adj V hV current rest visited group hcur] at hu ⊢
    refine ih ?_ u hu v hv
    intro w hw z hz
    rcases Finset.mem_insert.mp hw with rfl | hw2
    · refine Or.inr (List.mem_append.mpr (Or.inl ?_))
      rw [toListK]
      exact (Finset.mem_sort _).mpr hz
    · rcases hinv w hw2 z hz with h | h
      · exact Or.inl (Finset.mem_insert_of_mem h)
      · rcases List.mem_cons.mp h with rfl | h
        · exact Or.inl (Finset.mem_insert_self z visited)
        · exact Or.inr (List.mem_append.mpr (Or.inr h))

/-- The DFS started on one fresh root, with an adjacency-closed visited
set, collects exactly the root's connected component: the group is the set
of keys reachable from the root, the final visited set adds exactly the
group, and it is adjacency-closed. -/
theorem dfs_component (adj : Key → Finset Key) (V : Finset Key)
    (hV : ∀ u, u ∉ V → adj u = ∅)
    (hsym : ∀ a b, b ∈ adj a ↔ a ∈ adj b)
    (root : Key) (visited : Finset Key)
    (hcl : ∀ u ∈ visited, ∀ v ∈ adj u, v ∈ visited)
    (hroot : root ∉ visited) :
    (∀ x, x ∈ (dfs adj V hV [root] visited []).2 ↔ Reach adj root x) ∧
    (dfs adj V hV [root] visited []).1 =
      visited ∪ (dfs adj V hV [root] visited []).2.toFinset ∧
    (∀ x ∈ (dfs adj V hV [root] visited []).2, x ∉ visited) ∧
    (∀ u ∈ (dfs adj V hV [root] visited []).1, ∀ v ∈ adj u,
      v ∈ (dfs adj V hV [root] visited []).1) := by
  obtain ⟨g2, hg1, hg2, hg3⟩ := dfs_grows adj V hV [root] visited []
  have hg2eq : (dfs adj V hV [root] visited []).2 = g2 := by simpa using hg1
  have hclosure : ∀ u ∈ (dfs adj V hV [root] visited []).1, ∀ v ∈ adj u,
      v ∈ (dfs adj V hV [root] visited []).1 :=
    dfs_closure adj V hV [root] visited []
      (fun u hu v hv => Or.inl (hcl u hu v hv))
  refine ⟨?_, by rw [hg2eq]; exact hg2,
    by rw [hg2eq]; exact hg3, hclosure⟩
  intro x
  constructor
  · intro hx
    rw [hg2eq] at hx
    have hx1 : x ∈ (dfs adj V hV [root] visited []).1 := by
      rw [hg2]
      exact Finset.mem_union_right _ (List.mem_toFinset.mpr hx)
    have hres := dfs_sound adj V hV root [root] visited []
      (fun y hy => by
        rcases List.mem_cons.mp hy with rfl | h
        · exact Relation.ReflTransGen.refl
        · exact absurd h (List.not_mem_nil y)) x hx1
    rcases hres with hxv | hr
    · exact absurd hxv (hg3 x hx)
    · exact hr
  · intro hr
    have hrootmem : root ∈ (dfs adj V hV [root] visited []).1 :=
      dfs_absorb adj V hV [root] visited [] root
        (Or.inl (List.mem_cons_self _ _))
    have hx1 : x ∈ (dfs adj V hV [root] visited []).1 :=
      reach_closed adj _ hclosure hrootmem hr
    rw [hg2] at hx1
    rcases Finset.mem_union.mp hx1 with hxv | hxg
    · have hrx : Reach adj x root := reach_symm adj hsym hr
      have hrv : root ∈ visited := reach_closed adj visited hcl hxv hrx
      exact absurd hrv hroot
    · rw [hg2eq]
      exact List.mem_toFinset.mp hxg

/-- Unfolding of the outer loop on the empty key list. -/
theorem expandLoop_nil (adj : Key → Finset Key) (V : Finset Key)
    (hV : ∀ u, u ∉ V → adj u = ∅) (visited : Finset Key)
    (out : Key → Finset Key) :
    expandLoop adj V hV [] visited out = (visited, out) := by
  rw [expandLoop]

/-- Unfolding of the outer loop on an already visited key. -/
theorem expandLoop_cons_mem (adj : Key → Finset Key) (V : Finset Key)
    (hV : ∀ u, u ∉ V → adj u = ∅) (node : Key) (keys : List Key)
    (visited : Finset Key) (out : Key → Finset Key) (h : node ∈ visited) :
    expandLoop adj V hV (node :: keys) visited out =
      expandLoop adj V hV keys visited out := by
  rw [expandLoop, if_pos h]

/-- Unfolding of the outer loop on a fresh key. -/
theorem expandLoop_cons_new (adj : Key → Finset Key) (V : Finset Key)
    (hV : ∀ u, u ∉ V → adj u = ∅) (node : Key) (keys : List Key)
    (visited : Finset Key) (out : Key → Finset Key) (h : node ∉ visited) :
    expandLoop adj V hV (node :: keys) visited out =
      expandLoop adj V hV keys (dfs adj V hV [node] visited []).1
        (updateGroup out (dfs adj V hV [node] visited []).2.toFinset) := by
  rw [expandLoop, if_neg h]

/-- Invariant of the outer loop: the visited set only grows, every
processed key ends visited, unvisited keys stay absent from the rebuilt
map, and every visited key's rebuilt entry is exactly the other members of
its connected component. -/
theorem expandLoop_spec (adj : Key → Finset Key) (V : Finset Key)
    (hV : ∀ u, u ∉ V → adj u = ∅)
    (hsym : ∀ a b, b ∈ adj a ↔ a ∈ adj b) :
    ∀ (keys : List Key) (visited : Finset Key) (out : Key → Finset Key),
      (∀ u ∈ visited, ∀ v ∈ adj u, v ∈ visited) →
      (∀ u, u ∉ visited → out u = ∅) →
      (∀ u ∈ visited, ∀ b, b ∈ out u ↔ (Reach adj u b ∧ b ≠ u)) →
      visited ⊆ (expandLoop adj V hV keys visited out).1 ∧
      (∀ node ∈ keys, node ∈ (expandLoop adj V hV keys visited out).1) ∧
      (∀ u, u ∉ (expandLoop adj V hV keys visited out).1 →
        (expandLoop adj V hV keys visited out).2 u = ∅) ∧
      (∀ u ∈ (expandLoop adj V hV keys visited out).1, ∀ b,
        b ∈ (expandLoop adj V hV keys visited out).2 u ↔
          (Reach adj u b ∧ b ≠ u)) := by
  intro keys
  induction keys with
  | nil =>
    intro visited out hcl hempty hiff
    rw [expandLoop_nil]
    exact ⟨subset_rfl, fun node hn => absurd hn (List.not_mem_nil node),
      hempty, hiff⟩
  | cons node keys ih =>
    intro visited out hcl hempty hiff
    by_cases hnode : node ∈ visited
    · rw [expandLoop_cons_mem adj V hV node keys visited out hnode]
      obtain ⟨s1, s2, s3, s4⟩ := ih visited out hcl hempty hiff
      refine ⟨s1, ?_, s3, s4⟩
      intro n hn
      rcases List.mem_cons.mp hn with rfl | hn
      · exact s1 hnode
      · exact s2 n hn
    · rw [expandLoop_cons_new adj V hV node keys visited out hnode]
      obtain ⟨hgiff, hg2, hg3, hgcl⟩ :=
        dfs_component adj V hV hsym node visited hcl hnode
      have hempty2 : ∀ u, u ∉ (dfs adj V hV [node] visited []).1 →
          updateGroup out (dfs adj V hV [node] visited []).2.toFinset u = ∅ := by
        intro u hu
        rw [hg2] at hu
        rw [updateGroup,
          if_neg (fun hmem => hu (Finset.mem_union_right _ hmem))]
        exact hempty u (fun hv => hu (Finset.mem_union_left _ hv))
      have hiff2 : ∀ u ∈ (dfs adj V hV [node] visited []).1, ∀ b,
          b ∈ updateGroup out (dfs adj V hV [node] visited []).2.toFinset u ↔
            (Reach adj u b ∧ b ≠ u) := by
        intro u hu b
        rw [updateGroup]
        by_cases hug : u ∈ (dfs adj V hV [node] visited []).2.toFinset
        · rw [if_pos hug]
          have huG : u ∈ (dfs adj V hV [node] visited []).2 :=
            List.mem_toFinset.mp hug
          have hru : Reach adj node u := (hgiff u).mp huG
          have hur : Reach adj u node := reach_symm adj hsym hru
          have hreq : ∀ c, Reach adj u c ↔ Reach adj node c := fun c =>
            ⟨fun h => Relation.ReflTransGen.trans hru h,
              fun h => Relation.ReflTransGen.trans hur h⟩
          by_cases herase :
              (dfs adj V hV [node] visited []).2.toFinset.erase u = ∅
          · rw [if_pos herase, hempty u (hg3 u huG)]
            constructor
            · intro hb
              exact absurd hb (Finset.not_mem_empty b)
            · rintro ⟨hreach, hne⟩
              have hbG : b ∈ (dfs adj V hV [node] visited []).2.toFinset :=
                List.mem_toFinset.mpr ((hgiff b).mpr ((hreq b).mp hreach))
              have hbe : b ∈
                  (dfs adj V hV [node] visited []).2.toFinset.erase u :=
                Finset.mem_erase.mpr ⟨hne, hbG⟩
              rw [herase] at hbe
              exact absurd hbe (Finset.not_mem_empty b)
          · rw [if_neg herase, Finset.mem_erase]
            constructor
            · rintro ⟨hne, hbG⟩
              exact ⟨(hreq b).mpr ((hgiff b).mp (List.mem_toFinset.mp hbG)),
                hne⟩
            · rintro ⟨hreach, hne⟩
              exact ⟨hne,
                List.mem_toFinset.mpr ((hgiff b).mpr ((hreq b).mp hreach))⟩
        · rw [if_neg hug]
          have huv : u ∈ visited := by
            rw [hg2] at hu
            rcases Finset.mem_union.mp hu with h | h
            · exact h
            · exact absurd h hug
          exact hiff u huv b
      obtain ⟨s1, s2, s3, s4⟩ :=
        ih (dfs adj V hV [node] visited []).1
          (updateGroup out (dfs adj V hV [node] visited []).2.toFinset)
          hgcl hempty2 hiff2
      refine ⟨?_, ?_, s3, s4⟩
      · intro u hu
        refine s1 ?_
        rw [hg2]
        exact Finset.mem_union_left _ hu
      · intro n hn
        rcases List.mem_cons.mp hn with rfl | hn
        · exact s1 (dfs_absorb adj V hV [n] visited [] n
            (Or.inl (List.mem_cons_self _ _)))
        · exact s2 n hn

/-- Claim C1: after `expand_cte_complementar`, a key's entry holds exactly
the other members of its connected component in the symmetrised
complementary graph.  Consequently the map is symmetric, no key lists
itself, two keys listing each other have the same component (so every
member of a component of size `k ≥ 2` lists exactly the other `k - 1`
members), and a key alone in its component is absent from the result. -/
theorem expand_cte_complementar_correct (dom : Finset Key)
    (m : Key → Finset Key) :
    (∀ a b, b ∈ expandCteComplementar dom m a ↔
      (SymmReach dom m a b ∧ b ≠ a)) ∧
    (∀ a b, b ∈ expandCteComplementar dom m a ↔
      a ∈ expandCteComplementar dom m b) ∧
    (∀ a, a ∉ expandCteComplementar dom m a) ∧
    (∀ a b, b ∈ expandCteComplementar dom m a →
      insert a (expandCteComplementar dom m a) =
        insert b (expandCteComplementar dom m b)) ∧
    (∀ a, (∀ b, SymmReach dom m a b → b = a) →
      expandCteComplementar dom m a = ∅) := by
  have hsym : ∀ a b, b ∈ symmAdj dom m a ↔ a ∈ symmAdj dom m b :=
    symmAdj_symm dom m
  obtain ⟨s1, s2, s3, s4⟩ :=
    expandLoop_spec (symmAdj dom m) (symmV dom m) (symmAdj_off dom m) hsym
      (toListK (symmV dom m)) ∅ (fun _ => ∅)
      (fun u hu => absurd hu (Finset.not_mem_empty u))
      (fun _ _ => rfl)
      (fun u hu => absurd hu (Finset.not_mem_empty u))
  have hmain : ∀ a b, b ∈ expandCteComplementar dom m a ↔
      (SymmReach dom m a b ∧ b ≠ a) := by
    intro a b
    by_cases ha : a ∈ (expandLoop (symmAdj dom m) (symmV dom m)
        (symmAdj_off dom m) (toListK (symmV dom m)) ∅ (fun _ => ∅)).1
    · exact s4 a ha b
    · rw [expandCteComplementar, s3 a ha]
      constructor
      · intro hb
        exact absurd hb (Finset.not_mem_empty b)
      · rintro ⟨hreach, hne⟩
        rcases Relation.ReflTransGen.cases_head hreach with rfl | ⟨c, hc, _⟩
        · exact absurd rfl hne.symm
        · have haV : a ∈ symmV dom m := symmV_of_mem_adj dom m a c hc
          have haK : a ∈ toListK (symmV dom m) := by
            rw [toListK]
            exact (Finset.mem_sort _).mpr haV
          exact absurd (s2 a haK) ha
  refine ⟨hmain, ?_, ?_, ?_, ?_⟩
  · intro a b
    rw [hmain, hmain]
    constructor
    · rintro ⟨hr, hne⟩
      exact ⟨reach_symm (symmAdj dom m) hsym hr, hne.symm⟩
    · rintro ⟨hr, hne⟩
      exact ⟨reach_symm (symmAdj dom m) hsym hr, hne.symm⟩
  · intro a
    rw [hmain]
    rintro ⟨_, hne⟩
    exact hne rfl
  · intro a b hb
    obtain ⟨hab, hne⟩ := (hmain a b).mp hb
    have hba : SymmReach dom m b a := reach_symm (symmAdj dom m) hsym hab
    ext x
    rw [Finset.mem_insert, Finset.mem_insert, hmain, hmain]
    constructor
    · rintro (rfl | ⟨hax, hxa⟩)
      · by_cases hxb : x = b
        · exact Or.inl hxb
        · exact Or.inr ⟨hba, hxb⟩
      · by_cases hxb : x = b
        · exact Or.inl hxb
        · exact Or.inr ⟨Relation.ReflTransGen.trans hba hax, hxb⟩
    · rintro (rfl | ⟨hbx, hxb⟩)
      · by_cases hxa : x = a
        · exact Or.inl hxa
        · exact Or.inr ⟨hab, hxa⟩
      · by_cases hxa : x = a
        · exact Or.inl hxa
        · exact Or.inr ⟨Relation.ReflTransGen.trans hab hbx, hxa⟩
  · intro a hsingle
    ext b
    rw [hmain]
    simp only [Finset.not_mem_empty, iff_false]
    rintro ⟨hreach, hne⟩
    exact hne (hsingle b hreach)

/-- Witness for C1 at a concrete input: with declared edges `A → B` and
`B → C`, the closure makes `C` a member of `A`'s entry. -/
theorem expand_cte_complementar_correct_witness :
    "C" ∈ expandCteComplementar exDomC exMapC "A" := by
  have h := expand_cte_complementar_correct exDomC exMapC
  refine (h.1 "A" "C").mpr ⟨?_, by decide⟩
  exact Relation.ReflTransGen.tail
    (Relation.ReflTransGen.single
      (show "B" ∈ symmAdj exDomC exMapC "A" by decide))
    (show "C" ∈ symmAdj exDomC exMapC "B" by decide)

end Sped
